import Mathlib

/-!
Verification of the search-engine core: a shallow embedding of
`inverted_index.py`, `url_frontier.py`, `crawler_manager.py` and
`api_server.py` (the snippet generator), with theorems settling the
spec claims about them.

Modelling conventions:
* Python `dict`s are embedded as association lists (`List (key × value)`)
  preserving insertion order, since Python dictionaries iterate in
  insertion order and `d[k] = v` keeps the position of an existing key.
* Python `float`s are modelled as real numbers (`ℝ`) where logarithms
  occur, and the index structure is kept generic in the score type so
  that loaded index states with rational scores can be reasoned about
  executably.
* Python `set` iteration order is unspecified; wherever the source
  iterates over a set (the candidate-document set in `search`), the
  embedding takes the enumeration order as an explicit parameter and
  quantifies over it.
-/

namespace SearchEngine

set_option maxRecDepth 8192

/-! ### Association-list model of Python dictionaries -/

/-- Dictionary lookup: `d.get(k)` / `k in d`. -/
def dictGet? {β : Type} (l : List (String × β)) (k : String) : Option β :=
  (l.find? (fun p => p.1 == k)).map (·.2)

/-- Dictionary assignment `d[k] = v`: updates an existing key in place,
otherwise appends at the end (Python insertion-order semantics). -/
def dictSet {β : Type} (l : List (String × β)) (k : String) (v : β) :
    List (String × β) :=
  match l with
  | [] => [(k, v)]
  | (k', v') :: t => if k' == k then (k, v) :: t else (k', v') :: dictSet t k v

@[simp] theorem dictGet?_nil {β : Type} (k : String) :
    dictGet? ([] : List (String × β)) k = none := rfl

@[simp] theorem dictGet?_cons {β : Type} (k' : String) (v' : β) (t : List (String × β))
    (k : String) :
    dictGet? ((k', v') :: t) k = if k' == k then some v' else dictGet? t k := by
  by_cases h : k' == k <;> simp [dictGet?, List.find?, h]

theorem dictGet?_dictSet_eq {β : Type} (l : List (String × β)) (k : String) (v : β) :
    dictGet? (dictSet l k v) k = some v := by
  induction l with
  | nil => simp [dictSet]
  | cons p t ih =>
    obtain ⟨k', v'⟩ := p
    by_cases h : k' == k <;> simp [dictSet, h, ih]

theorem dictGet?_dictSet_ne {β : Type} (l : List (String × β)) (k k₂ : String) (v : β)
    (h : k ≠ k₂) : dictGet? (dictSet l k v) k₂ = dictGet? l k₂ := by
  induction l with
  | nil => simp [dictSet, h]
  | cons p t ih =>
    obtain ⟨k', v'⟩ := p
    by_cases hk : k' == k
    · have hk2 : k' = k := by simpa using hk
      subst hk2
      simp [dictSet, dictGet?_cons, h]
    · simp [dictSet, hk, dictGet?_cons, ih]

/-! ### Inverted index (`inverted_index.py`) -/

/-- State of `InvertedIndex`, generic in the score type.  The source
stores Python floats; scores are `ℝ` for the TF-IDF theorems and `ℚ`
for executable counterexamples (a loaded index can hold any floats). -/
structure InvIndex (α : Type) where
  index : List (String × List (String × α))
  document_count : ℕ
  term_document_count : List (String × ℕ)
  document_lengths : List (String × ℕ)
deriving DecidableEq

/-- The empty `InvertedIndex()` state. -/
def emptyIndex (α : Type) : InvIndex α := ⟨[], 0, [], []⟩

/-- Posting lookup `self.index[term][doc_id]` (as an option). -/
def lookupScore {α : Type} (s : InvIndex α) (t d : String) : Option α :=
  (dictGet? s.index t).bind (fun ps => dictGet? ps d)

/-- `self.term_document_count[term]` (a `defaultdict(int)`, so absent keys read 0). -/
def lookupDf {α : Type} (s : InvIndex α) (t : String) : ℕ :=
  (dictGet? s.term_document_count t).getD 0

/-- The per-document term-frequency table built by `add_document`
(`term_freq = defaultdict(int); for term in terms: term_freq[term] += 1`);
keys appear in first-occurrence order. -/
def termFreq (terms : List String) : List (String × ℕ) :=
  terms.foldl (fun m t => dictSet m t ((dictGet? m t).getD 0 + 1)) []

/-- One step of the df-update loop of `add_document`
(`if doc_id not in self.index[term]: self.term_document_count[term] += 1`),
reading the pre-call `self.index` as the source does (the whole df loop
runs before any posting is written). -/
def dfStep {α : Type} (s : InvIndex α) (doc_id : String)
    (m : List (String × ℕ)) (p : String × ℕ) : List (String × ℕ) :=
  if ((dictGet? s.index p.1).bind (fun ps => dictGet? ps doc_id)).isSome then m
  else dictSet m p.1 ((dictGet? m p.1).getD 0 + 1)

/-- One step of the posting-update loop of `add_document`
(`self.index[term][doc_id] = freq / len(terms)`). -/
def postStep {α : Type} [DivisionRing α] (doc_id : String) (den : ℕ)
    (ix : List (String × List (String × α))) (p : String × ℕ) :
    List (String × List (String × α)) :=
  dictSet ix p.1 (dictSet ((dictGet? ix p.1).getD []) doc_id ((p.2 : α) / (den : α)))

/-- `InvertedIndex.add_document(doc_id, terms)`.

The source iterates `unique_terms = set(terms)` for the df update and
`term_freq.items()` for the posting update; both loops touch exactly the
keys of `term_freq`, each once, and the df loop runs entirely before the
posting loop while reading only the pre-call `self.index`.  The
embedding folds both updates over `termFreq terms` (first-occurrence
order); the resulting per-key values are identical for any iteration
order of `set(terms)`, and no claim observes the internal key order of
`self.index`. -/
def addDocument {α : Type} [DivisionRing α] (s : InvIndex α) (doc_id : String)
    (terms : List String) : InvIndex α :=
  if terms = [] then s
  else
    { index := (termFreq terms).foldl (postStep doc_id terms.length) s.index
      document_count := s.document_count + 1
      term_document_count := (termFreq terms).foldl (dfStep s doc_id) s.term_document_count
      document_lengths := dictSet s.document_lengths doc_id terms.length }

/-- The IDF factor `math.log(self.document_count / df) if df > 0 else 0`
that `calculate_tfidf_scores` applies for a term.  `math.log` is the
natural logarithm on reals; it is passed as the parameter `lg` so that
the definition stays executable, and every theorem instantiates `lg`
with `Real.log`. -/
def idfOf {α : Type} [DivisionRing α] (lg : α → α) (s : InvIndex α) (t : String) : α :=
  if 0 < lookupDf s t then lg ((s.document_count : α) / (lookupDf s t : α))
  else 0

/-- `InvertedIndex.calculate_tfidf_scores()`: for every term and posting,
replace the stored score by `score * idf`.  `term_document_count` and
`document_count` are read but not written. -/
def calculateTfidfScores {α : Type} [DivisionRing α] (lg : α → α) (s : InvIndex α) :
    InvIndex α :=
  { s with
    index := s.index.map (fun p => (p.1, p.2.map (fun q => (q.1, q.2 * idfOf lg s p.1)))) }

/-- The candidate-document pool of `search`: for each query term present
in the index, all doc ids of its posting dict (the source accumulates
them into a Python `set`; this list is that set with multiplicity, and
only membership and emptiness of it are ever used). -/
def candidateDocs {α : Type} (s : InvIndex α) (query : List String) : List String :=
  query.foldl
    (fun acc t =>
      match dictGet? s.index t with
      | some ps => acc ++ ps.map Prod.fst
      | none => acc)
    []

/-- The `doc_scores` accumulation of `search`: for each query term in
the index, iterate the candidate set (in the given enumeration order
`candOrder`) and add the term's posting score for each candidate that
has one (`doc_scores` is a `defaultdict(float)`). -/
def docScores {α : Type} [AddCommMonoid α] (s : InvIndex α) (query : List String)
    (candOrder : List String) : List (String × α) :=
  query.foldl
    (fun m t =>
      match dictGet? s.index t with
      | some ps =>
        candOrder.foldl
          (fun m' d =>
            match dictGet? ps d with
            | some sc => dictSet m' d ((dictGet? m' d).getD 0 + sc)
            | none => m')
          m
      | none => m)
    []

/-- The comparison used to model
`sorted(doc_scores.items(), key=lambda x: x[1], reverse=True)`:
entry `a` may precede entry `b` when `a`'s score is at least `b`'s. -/
def scoreGE {α : Type} [LinearOrder α] (a b : String × α) : Prop := b.2 ≤ a.2

instance scoreGE.decidableRel {α : Type} [LinearOrder α] :
    DecidableRel (scoreGE (α := α)) := fun a b => inferInstanceAs (Decidable (b.2 ≤ a.2))

/-- `InvertedIndex.search(query_terms, limit)`.  `candOrder` is the
iteration order of the candidate `set` (unspecified in Python and hence
a parameter here).  Python's `sorted` is a stable sort and with
`reverse=True` keeps equal-key elements in original order, exactly as
`List.insertionSort` with `scoreGE` does, and a stable sort w.r.t. a
fixed total preorder has a unique output. -/
def searchIdx {α : Type} [LinearOrder α] [AddCommMonoid α] (s : InvIndex α)
    (query : List String) (lim : ℕ) (candOrder : List String) :
    List (String × α) :=
  if query = [] then []
  else if candidateDocs s query = [] then []
  else (List.insertionSort scoreGE (docScores s query candOrder)).take lim

/-- The value pickled by `InvertedIndex.save_to_file` (the four entries
of the `data` dict; file I/O is modelled as handing over this value). -/
structure SavedIndex (α : Type) where
  index : List (String × List (String × α))
  document_count : ℕ
  term_document_count : List (String × ℕ)
  document_lengths : List (String × ℕ)

/-- `InvertedIndex.save_to_file`. -/
def saveToFile {α : Type} (s : InvIndex α) : SavedIndex α :=
  ⟨s.index, s.document_count, s.term_document_count, s.document_lengths⟩

/-- `InvertedIndex.load_from_file`: the four fields are restored from the
unpickled dict (wrapping in `defaultdict` changes no stored entry). -/
def loadFromFile {α : Type} (d : SavedIndex α) : InvIndex α :=
  ⟨d.index, d.document_count, d.term_document_count, d.document_lengths⟩

/-! ### URL frontier (`url_frontier.py`) and Python's `heapq`

`URLInfo.__lt__(a, b)` is `a.priority > b.priority`, so `heapq`'s
"min-heap" keeps the highest priority at the root.  Priorities (Python
floats) are modelled as `ℚ` so that every frontier computation is
decidable.  `time.time()` is modelled by a monotone counter stamped on
each successful add. -/

structure URLInfo where
  url : String
  priority : ℚ
  discovery_time : ℕ
deriving DecidableEq, Inhabited, Repr

/-- `URLInfo.__lt__`: higher priority compares as smaller for `heapq`. -/
def urlLt (a b : URLInfo) : Prop := b.priority < a.priority

instance urlLt.decidableRel : DecidableRel urlLt :=
  fun a b => inferInstanceAs (Decidable (b.priority < a.priority))

/-- The loop of `heapq._siftdown(heap, 0, pos)` with `newitem` already
read out: while `pos > 0`, compare `newitem` with the parent, moving the
parent down while `newitem < parent`; finally store `newitem`.
(The source's `startpos` is always 0 in this program.) -/
def siftdownLoop (heap : List URLInfo) (pos : ℕ) (newitem : URLInfo) :
    List URLInfo :=
  if 0 < pos then
    let parentpos := (pos - 1) / 2
    let parent := heap.getD parentpos default
    if urlLt newitem parent then
      siftdownLoop (heap.set pos parent) parentpos newitem
    else heap.set pos newitem
  else heap.set pos newitem
termination_by pos
decreasing_by
  omega

/-- `heapq.heappush(heap, item)`: append, then sift down from the last slot. -/
def heappush (heap : List URLInfo) (item : URLInfo) : List URLInfo :=
  siftdownLoop (heap ++ [item]) heap.length item

/-- The child-selection and move loop of `heapq._siftup(heap, pos)`:
repeatedly move the "smaller" child (w.r.t. `urlLt`, i.e. the
higher-priority child, ties to the right) up into `pos` until `pos` has
no child; returns the heap together with the final hole position. -/
def siftupLoop (heap : List URLInfo) (pos : ℕ) : List URLInfo × ℕ :=
  if h : 2 * pos + 1 < heap.length then
    siftupLoop
      (heap.set pos (heap.getD
        (if 2 * pos + 1 + 1 < heap.length ∧
            ¬ urlLt (heap.getD (2 * pos + 1) default)
              (heap.getD (2 * pos + 1 + 1) default) then
          2 * pos + 1 + 1
        else 2 * pos + 1) default))
      (if 2 * pos + 1 + 1 < heap.length ∧
          ¬ urlLt (heap.getD (2 * pos + 1) default)
            (heap.getD (2 * pos + 1 + 1) default) then
        2 * pos + 1 + 1
      else 2 * pos + 1)
  else (heap, pos)
termination_by heap.length - pos
decreasing_by
  simp only [List.length_set]
  split <;> omega

/-- `heapq._siftup(heap, pos)`: read `newitem`, run the move-up loop,
then sift `newitem` down from the final hole (the source's intermediate
`heap[pos] = newitem` write is immediately re-read and re-written by
`_siftdown`, so it is fused into `siftdownLoop`). -/
def siftup (heap : List URLInfo) (pos : ℕ) : List URLInfo :=
  siftdownLoop (siftupLoop heap pos).1 (siftupLoop heap pos).2 (heap.getD pos default)

/-- `heapq.heappop(heap)`: pop the last element; if the heap is still
non-empty, return the root, move the last element there and sift up. -/
def heappop (heap : List URLInfo) : Option (URLInfo × List URLInfo) :=
  match heap with
  | [] => none
  | _ :: _ =>
    if heap.dropLast = [] then some (heap.getLastD default, [])
    else
      some (heap.dropLast.getD 0 default,
        siftup (heap.dropLast.set 0 (heap.getLastD default)) 0)

/-- `URLFrontier` state: capacity, the heap list, the seen set, and the
modelled clock for `time.time()`. -/
structure Frontier where
  max_size : ℕ
  queue : List URLInfo
  seen : List String
  clock : ℕ
deriving DecidableEq

/-- A fresh `URLFrontier(max_size)`. -/
def emptyFrontier (max_size : ℕ) : Frontier := ⟨max_size, [], [], 0⟩

/-- `URLFrontier.add_url(url, priority)`: returns `False` untouched if the
URL was seen or the queue is at capacity; otherwise pushes and records. -/
def addUrl (f : Frontier) (url : String) (priority : ℚ) : Bool × Frontier :=
  if url ∈ f.seen then (false, f)
  else if f.max_size ≤ f.queue.length then (false, f)
  else
    (true,
      { f with
        queue := heappush f.queue ⟨url, priority, f.clock⟩
        seen := url :: f.seen
        clock := f.clock + 1 })

/-- `URLFrontier.get_next_url()`: `None` on an empty queue, else pop. -/
def getNextUrl (f : Frontier) : Option (String × ℚ) × Frontier :=
  match heappop f.queue with
  | none => (none, f)
  | some (info, rest) => (some (info.url, info.priority), { f with queue := rest })

/-! ### Link priority (`crawler_manager.py`, `_calculate_url_priority`)

`urllib.parse.urlparse` is modelled for absolute URLs: the netloc is
what follows `"://"` up to the first `/`, `?` or `#`, and the path runs
from that `/` up to `?` or `#`.  Priorities (floats) are modelled as
`ℚ`; `0.5 + 0.2 - 0.05*3` is exact in either arithmetic. -/

/-- Character list after the `"://"` separator, or `[]` when absent
(`urlparse` yields an empty netloc and treats the input as a path;
the crawler only calls this on absolute http/https URLs). -/
def afterSchemeSep : List Char → Option (List Char)
  | ':' :: '/' :: '/' :: rest => some rest
  | _ :: rest => afterSchemeSep rest
  | [] => none

/-- `urlparse(url).netloc` (for absolute URLs). -/
def netlocOf (url : String) : List Char :=
  match afterSchemeSep url.toList with
  | some rest => rest.takeWhile (fun c => c ≠ '/' ∧ c ≠ '?' ∧ c ≠ '#')
  | none => []

/-- `urlparse(url).path` (for absolute URLs). -/
def pathOf (url : String) : List Char :=
  match afterSchemeSep url.toList with
  | some rest =>
    (rest.dropWhile (fun c => c ≠ '/' ∧ c ≠ '?' ∧ c ≠ '#')).takeWhile
      (fun c => c ≠ '?' ∧ c ≠ '#')
  | none => []

/-- Python `s.strip('/')`. -/
def stripSlashes (s : List Char) : List Char :=
  ((s.dropWhile (· = '/')).reverse.dropWhile (· = '/')).reverse

/-- Python `s.split('/')`: note `[].splitSlash = [[]]`, matching
`"".split('/') == ['']`. -/
def splitSlash : List Char → List (List Char)
  | [] => [[]]
  | c :: cs =>
    if c = '/' then [] :: splitSlash cs
    else
      match splitSlash cs with
      | [] => [[c]]
      | s :: ss => (c :: s) :: ss

/-- `len(urlparse(url).path.strip('/').split('/'))`. -/
def pathDepth (url : String) : ℕ :=
  (splitSlash (stripSlashes (pathOf url))).length

/-- `CrawlerManager._calculate_url_priority(url, referring_url)`. -/
def calcUrlPriority (url referring_url : String) : ℚ :=
  let base : ℚ := 1 / 2
  let withDomain := if netlocOf url = netlocOf referring_url then base + 2 / 10 else base
  let p := withDomain - (pathDepth url : ℚ) * (5 / 100)
  max 0 (min 1 p)

/-! ### Snippet generation (`api_server.py`, `SearchAPI._generate_snippet`)

Strings are modelled as `List Char`; `str.lower()` is modelled as
per-character lowercasing (exact for the ASCII content the claims are
about).  Python slices `s[i:j]`, `str.find` and `+` translate to
`drop`/`take`, an explicit first-match search, and append. -/

/-- Python `haystack.find(needle)`: index of the first occurrence, as an
option (`-1` becomes `none`); the empty needle is found at 0. -/
def findSub : List Char → List Char → Option ℕ
  | hay, pat =>
    if pat <+: hay then some 0
    else
      match hay with
      | [] => none
      | _ :: t => (findSub t pat).map (· + 1)

/-- Per-character model of `str.lower()`. -/
def lowerStr (s : List Char) : List Char := s.map Char.toLower

/-- The `first_match` computation of `_generate_snippet`: fold over the
query terms keeping the smallest found position, starting from
`len(content)`. -/
def firstMatch (content : List Char) (terms : List (List Char)) : ℕ :=
  terms.foldl
    (fun acc t =>
      match findSub (lowerStr content) (lowerStr t) with
      | some p => if p < acc then p else acc
      | none => acc)
    content.length

/-- The `start = max(0, first_match - max_length // 2)` bound of
`_generate_snippet` (in `ℕ`, `max(0, a - b)` is just truncated
subtraction, written via the guarding `if`). -/
def snipStart (content : List Char) (terms : List (List Char)) (ml : ℕ) : ℕ :=
  if ml / 2 ≤ firstMatch content terms then firstMatch content terms - ml / 2 else 0

/-- The `end = min(len(content), start + max_length)` bound of
`_generate_snippet`. -/
def snipStop (content : List Char) (terms : List (List Char)) (ml : ℕ) : ℕ :=
  min content.length (snipStart content terms ml + ml)

/-- `SearchAPI._generate_snippet(content, query_terms, max_length)`; the
source's `start`/`end` local bindings are the named definitions
`snipStart`/`snipStop`, and `snippet` is `content[start:end]`. -/
def generateSnippet (content : List Char) (terms : List (List Char))
    (max_length : ℕ) : List Char :=
  if content = [] ∨ terms = [] then
    if max_length < content.length then content.take max_length ++ "...".toList
    else content
  else
    if snipStop content terms max_length < content.length then
      (if 0 < snipStart content terms max_length then
        "...".toList ++ (content.drop (snipStart content terms max_length)).take
          (snipStop content terms max_length - snipStart content terms max_length)
      else
        (content.drop (snipStart content terms max_length)).take
          (snipStop content terms max_length - snipStart content terms max_length)) ++
        "...".toList
    else
      if 0 < snipStart content terms max_length then
        "...".toList ++ (content.drop (snipStart content terms max_length)).take
          (snipStop content terms max_length - snipStart content terms max_length)
      else
        (content.drop (snipStart content terms max_length)).take
          (snipStop content terms max_length - snipStart content terms max_length)

/-! ### Theorems: persistence and search shape -/

instance scoreGE.isTotal {α : Type} [LinearOrder α] :
    IsTotal (String × α) scoreGE := ⟨fun a b => le_total b.2 a.2⟩

instance scoreGE.isTrans {α : Type} [LinearOrder α] :
    IsTrans (String × α) scoreGE := ⟨fun _ _ _ h1 h2 => le_trans h2 h1⟩

theorem loadFromFile_saveToFile {α : Type} (s : InvIndex α) :
    loadFromFile (saveToFile s) = s := rfl

/-- C3: `save_to_file` followed by `load_from_file` restores all four
stored fields (the pickled `data` dict carries the complete state), so
the loaded index answers every `search` query — any terms, any limit,
any candidate-set enumeration — exactly as the saved one.  File I/O is
modelled as a value round-trip, which is what `pickle.dump`/`pickle.load`
performs on this data. -/
theorem search_after_save_load_roundtrip {α : Type} [LinearOrder α] [AddCommMonoid α]
    (s : InvIndex α) (query : List String) (lim : ℕ) (candOrder : List String) :
    searchIdx (loadFromFile (saveToFile s)) query lim candOrder =
      searchIdx s query lim candOrder := by
  rw [loadFromFile_saveToFile]

/-- A post-finalize index state with two documents whose scores for the
term `"t"` tie (any index state reachable by `load_from_file`, and also
reachable by adding two one-token documents and finalizing, where both
scores are `ln(2/2) = 0`; the scores here are the integer-valued
float 1.0, modelled in `ℤ` so the whole computation is decidable). -/
def tieIndex : InvIndex ℤ :=
  ⟨[("t", [("D1", 1), ("D2", 1)])], 2, [("t", 2)], [("D1", 1), ("D2", 1)]⟩

/-- C2, counterexample to the tie-break clause: the candidate documents
of the query `["t"]` on `tieIndex` are exactly `{D1, D2}`, and with the
candidate-set iteration order `["D2", "D1"]` — a duplicate-free
enumeration of that set, which Python's unordered `set` may produce —
`search` returns the higher doc id `"D2"` first even though both scores
are equal, so equal-score results are not ordered by lower doc id. -/
theorem search_tiebreak_not_lower_doc_id :
    searchIdx tieIndex ["t"] 10 ["D2", "D1"] = [("D2", 1), ("D1", 1)] ∧
      List.Perm ["D2", "D1"] (candidateDocs tieIndex ["t"]) ∧
      ["D2", "D1"].Nodup ∧ "D1".data < "D2".data := by
  refine ⟨by decide, by decide, by decide, by decide⟩

/-- C2, amended: for every index, query, limit and candidate-set
enumeration, `search` returns at most `limit` results and they are
sorted in non-increasing score order (ties in unspecified set-iteration
order, not necessarily by doc id). -/
theorem search_length_le_and_sorted {α : Type} [LinearOrder α] [AddCommMonoid α]
    (s : InvIndex α) (query : List String) (lim : ℕ) (candOrder : List String) :
    (searchIdx s query lim candOrder).length ≤ lim ∧
      (searchIdx s query lim candOrder).Sorted scoreGE := by
  unfold searchIdx
  split
  · simp
  · split
    · simp
    · constructor
      · rw [List.length_take]
        exact Nat.min_le_left _ _
      · exact ((List.sorted_insertionSort scoreGE _).sublist (List.take_sublist _ _))

/-! ### Theorems: link priority (claim C8) -/

/-- Modelled from the spec's words: "count of non-empty path segments"
of a URL's path. -/
def nonEmptySegCount (url : String) : ℕ :=
  ((splitSlash (pathOf url)).filter (fun s => s ≠ [])).length

/-- Modelled from the spec's words, with the depth term corrected to
what the code computes: the number of `/`-separated fields of the path
stripped of leading and trailing slashes, which is the number of `/`
characters remaining plus one (in particular 1 for an empty path). -/
def slashFieldCount (url : String) : ℕ :=
  (stripSlashes (pathOf url)).count '/' + 1

theorem length_splitSlash (l : List Char) :
    (splitSlash l).length = l.count '/' + 1 := by
  induction l with
  | nil => simp [splitSlash]
  | cons c cs ih =>
    by_cases h : c = '/'
    · subst h
      simp [splitSlash, ih, List.count_cons]
    · have hc : (cs.count '/' + 1) = (splitSlash cs).length := ih.symm
      rcases he : splitSlash cs with _ | ⟨s, ss⟩
      · simp [he] at hc
      · simp [splitSlash, h, he, List.count_cons]
        have := hc
        rw [he] at this
        simp at this
        omega

/-- C8, counterexample: for the link `https://a.com` offered from the
referring page `https://a.com/x`, the path has zero non-empty segments,
so the claimed formula gives `0.5 + 0.2 − 0.05×0 = 0.7`, but the code
computes `len("".strip("/").split("/")) = 1` and yields `0.65`. -/
theorem priority_counterexample_empty_path :
    calcUrlPriority "https://a.com" "https://a.com/x" = 13 / 20 ∧
      nonEmptySegCount "https://a.com" = 0 ∧
      netlocOf "https://a.com" = netlocOf "https://a.com/x" ∧
      max 0 (min 1 ((1 : ℚ) / 2 + 2 / 10 - (0 : ℕ) * (5 / 100))) = 7 / 10 ∧
      (13 / 20 : ℚ) ≠ 7 / 10 := by
  have h1 : pathDepth "https://a.com" = 1 := by decide
  have h2 : netlocOf "https://a.com" = netlocOf "https://a.com/x" := by decide
  refine ⟨?_, by decide, h2, by norm_num, by norm_num⟩
  rw [calcUrlPriority]
  rw [h1, if_pos h2]
  norm_num

/-- C8, amended: the computed link priority equals 0.5, plus 0.2 when
the link's netloc equals the referring page's netloc, minus 0.05 times
the number of `/`-separated fields of the path stripped of leading and
trailing slashes (1 for an empty path, otherwise the segment count with
empty interior segments included), clamped to [0, 1]; the spec's example
`https://a.com/x` → `https://a.com/x/y/z` yields 0.55, and every
computed priority lies in [0, 1]. -/
theorem priority_formula_bounds_example :
    (∀ url referring_url : String,
        calcUrlPriority url referring_url =
          max 0 (min 1
            ((1 / 2 : ℚ) +
              (if netlocOf url = netlocOf referring_url then 2 / 10 else 0) -
              (slashFieldCount url : ℚ) * (5 / 100))) ∧
        0 ≤ calcUrlPriority url referring_url ∧
        calcUrlPriority url referring_url ≤ 1) ∧
      calcUrlPriority "https://a.com/x/y/z" "https://a.com/x" = 11 / 20 := by
  constructor
  · intro url referring_url
    have hd : pathDepth url = slashFieldCount url := by
      rw [pathDepth, slashFieldCount, length_splitSlash]
    refine ⟨?_, ?_, ?_⟩
    · rw [calcUrlPriority, hd]
      by_cases h : netlocOf url = netlocOf referring_url <;> simp [h]
    · rw [calcUrlPriority]
      exact le_max_left 0 _
    · rw [calcUrlPriority]
      exact max_le (by norm_num) (min_le_left 1 _)
  · have h1 : pathDepth "https://a.com/x/y/z" = 3 := by decide
    have h2 : netlocOf "https://a.com/x/y/z" = netlocOf "https://a.com/x" := by decide
    rw [calcUrlPriority, h1, if_pos h2]
    norm_num

/-! ### Lemmas about `add_document` and `calculate_tfidf_scores` -/

/-- The keys of `dictSet l k v` are the keys of `l`, with `k` appended
when it is new. -/
theorem map_fst_dictSet {β : Type} (l : List (String × β)) (k : String) (v : β) :
    (dictSet l k v).map Prod.fst =
      if k ∈ l.map Prod.fst then l.map Prod.fst else l.map Prod.fst ++ [k] := by
  induction l with
  | nil => simp [dictSet]
  | cons p t ih =>
    obtain ⟨k', v'⟩ := p
    by_cases h : k' == k
    · have hk : k' = k := by simpa using h
      subst hk
      simp [dictSet, h]
    · have hk : ¬ k = k' := fun hh => by simp [hh] at h
      have hd : dictSet ((k', v') :: t) k v = (k', v') :: dictSet t k v := by
        simp [dictSet, h]
      rw [hd, List.map_cons, ih]
      by_cases hm : k ∈ t.map Prod.fst
      · simp [hm, hk]
      · simp [hm, hk]

theorem nodup_keys_dictSet {β : Type} (l : List (String × β)) (k : String) (v : β)
    (h : (l.map Prod.fst).Nodup) : ((dictSet l k v).map Prod.fst).Nodup := by
  rw [map_fst_dictSet]
  by_cases hm : k ∈ l.map Prod.fst
  · simpa [hm] using h
  · rw [if_neg hm]
    simp [List.nodup_append, h, hm]

/-- The term-frequency table records exactly the occurrence counts of
the input tokens. -/
theorem dictGet?_termFreq (terms : List String) (t : String) :
    dictGet? (termFreq terms) t =
      if t ∈ terms then some (terms.count t) else none := by
  suffices h : ∀ (m : List (String × ℕ)),
      dictGet? (terms.foldl (fun m u => dictSet m u ((dictGet? m u).getD 0 + 1)) m) t =
        if t ∈ terms then some ((dictGet? m t).getD 0 + terms.count t)
        else dictGet? m t by
    rw [termFreq, h []]
    by_cases hm : t ∈ terms <;> simp [hm]
  induction terms with
  | nil => intro m; simp
  | cons u rest ih =>
    intro m
    simp only [List.foldl_cons]
    rw [ih]
    by_cases hu : t = u
    · subst hu
      by_cases hr : t ∈ rest
      · simp [hr, dictGet?_dictSet_eq, List.count_cons]
        omega
      · simp [hr, dictGet?_dictSet_eq, List.count_cons, List.count_eq_zero.mpr hr]
    · have hset : dictGet? (dictSet m u ((dictGet? m u).getD 0 + 1)) t = dictGet? m t :=
        dictGet?_dictSet_ne m u t _ (fun hh => hu hh.symm)
      by_cases hr : t ∈ rest <;>
        simp [hr, hset, hu, List.count_cons, List.mem_cons]

theorem nodup_keys_termFreq (terms : List String) :
    ((termFreq terms).map Prod.fst).Nodup := by
  suffices h : ∀ (m : List (String × ℕ)), (m.map Prod.fst).Nodup →
      (((terms.foldl (fun m u => dictSet m u ((dictGet? m u).getD 0 + 1)) m)).map
        Prod.fst).Nodup by
    exact h [] (by simp)
  induction terms with
  | nil => intro m hm; simpa using hm
  | cons u rest ih =>
    intro m hm
    exact ih _ (nodup_keys_dictSet m u _ hm)

theorem dictGet?_eq_none_of_not_mem {β : Type} (l : List (String × β)) (k : String)
    (h : k ∉ l.map Prod.fst) : dictGet? l k = none := by
  induction l with
  | nil => rfl
  | cons p t ih =>
    obtain ⟨k', v'⟩ := p
    simp only [List.map_cons, List.mem_cons] at h
    push_neg at h
    have : (k' == k) = false := by simpa using (fun hh : k' = k => h.1 hh.symm)
    simp [dictGet?_cons, this, ih h.2]

/-- Folding the posting update over a duplicate-free frequency table:
each key of the table gets its posting dict extended with `doc_id`, all
other keys keep their posting dict. -/
theorem dictGet?_foldl_postStep {α : Type} [DivisionRing α] (doc_id : String) (den : ℕ)
    (tf : List (String × ℕ)) (hnd : (tf.map Prod.fst).Nodup)
    (ix : List (String × List (String × α))) (t : String) :
    dictGet? (tf.foldl (postStep doc_id den) ix) t =
      match dictGet? tf t with
      | some freq =>
        some (dictSet ((dictGet? ix t).getD []) doc_id ((freq : α) / (den : α)))
      | none => dictGet? ix t := by
  induction tf generalizing ix with
  | nil => simp
  | cons p rest ih =>
    obtain ⟨k, freq⟩ := p
    simp only [List.map_cons, List.nodup_cons] at hnd
    simp only [List.foldl_cons]
    by_cases ht : k = t
    · subst ht
      have hrest : dictGet? rest k = none := dictGet?_eq_none_of_not_mem rest k hnd.1
      rw [ih hnd.2]
      simp [hrest, dictGet?_cons, postStep, dictGet?_dictSet_eq]
    · rw [ih hnd.2]
      have hpost : dictGet? (postStep doc_id den ix (k, freq)) t = dictGet? ix t := by
        simp only [postStep]
        exact dictGet?_dictSet_ne _ _ _ _ ht
      rcases h : dictGet? rest t with _ | v <;>
        simp [dictGet?_cons, ht, h, hpost, fun hh : k = t => ht hh]

/-- Folding the df update over a duplicate-free frequency table: a term
key of the table whose posting dict lacks `doc_id` (in the pre-call
index) gets its df bumped by one; every other term keeps its df. -/
theorem dictGet?_foldl_dfStep {α : Type} (s : InvIndex α) (doc_id : String)
    (tf : List (String × ℕ)) (hnd : (tf.map Prod.fst).Nodup)
    (m : List (String × ℕ)) (t : String) :
    dictGet? (tf.foldl (dfStep s doc_id) m) t =
      if (dictGet? tf t).isSome ∧ (lookupScore s t doc_id).isNone then
        some ((dictGet? m t).getD 0 + 1)
      else dictGet? m t := by
  induction tf generalizing m with
  | nil => simp
  | cons p rest ih =>
    obtain ⟨k, freq⟩ := p
    simp only [List.map_cons, List.nodup_cons] at hnd
    simp only [List.foldl_cons]
    rw [ih hnd.2]
    by_cases ht : k = t
    · subst ht
      have hrest : dictGet? rest k = none := dictGet?_eq_none_of_not_mem rest k hnd.1
      rcases hs : lookupScore s k doc_id with _ | v
      · have hstep : dfStep s doc_id m (k, freq) =
            dictSet m k ((dictGet? m k).getD 0 + 1) := by
          simp only [dfStep]
          rw [if_neg]
          simp only [lookupScore] at hs
          simp [hs]
        simp [hstep, hrest, hs, dictGet?_dictSet_eq]
      · have hstep : dfStep s doc_id m (k, freq) = m := by
          simp only [dfStep]
          rw [if_pos]
          simp only [lookupScore] at hs
          simp [hs]
        simp [hstep, hrest, hs]
    · have hstep : dictGet? (dfStep s doc_id m (k, freq)) t = dictGet? m t := by
        simp only [dfStep]
        split
        · rfl
        · exact dictGet?_dictSet_ne _ _ _ _ ht
      have hb : (k == t) = false := by simpa using ht
      have hcons : dictGet? ((k, freq) :: rest) t = dictGet? rest t := by
        simp [dictGet?_cons, hb]
      rw [hcons, hstep]

/-- `add_document` on a non-empty token list: the new document's posting
for each of its terms is `count/len`; every other posting is unchanged. -/
theorem lookupScore_addDocument {α : Type} [DivisionRing α] (s : InvIndex α)
    (doc_id : String) (terms : List String) (hne : terms ≠ []) (t d : String) :
    lookupScore (addDocument s doc_id terms) t d =
      if t ∈ terms ∧ d = doc_id then
        some ((terms.count t : α) / (terms.length : α))
      else lookupScore s t d := by
  simp only [addDocument, if_neg hne, lookupScore]
  rw [dictGet?_foldl_postStep doc_id terms.length (termFreq terms)
    (nodup_keys_termFreq terms) s.index t, dictGet?_termFreq]
  by_cases htm : t ∈ terms
  · simp only [htm, if_true, true_and]
    by_cases hd : d = doc_id
    · subst hd
      simp [dictGet?_dictSet_eq]
    · rw [if_neg hd]
      rcases hix : dictGet? s.index t with _ | ps
      · simp [dictGet?_dictSet_ne _ _ _ _ (fun hh => hd hh.symm), hix,
          dictGet?_eq_none_of_not_mem ([] : List (String × α)) d (by simp)]
      · simp [hix, dictGet?_dictSet_ne _ _ _ _ (fun hh => hd hh.symm)]
  · simp [htm]

/-- `add_document` on a non-empty token list: df of each term of the new
document that did not yet have this `doc_id` posting rises by one; every
other df is unchanged. -/
theorem lookupDf_addDocument {α : Type} [DivisionRing α] (s : InvIndex α)
    (doc_id : String) (terms : List String) (hne : terms ≠ []) (t : String) :
    lookupDf (addDocument s doc_id terms) t =
      if t ∈ terms ∧ (lookupScore s t doc_id).isNone then lookupDf s t + 1
      else lookupDf s t := by
  simp only [addDocument, if_neg hne, lookupDf]
  rw [dictGet?_foldl_dfStep s doc_id (termFreq terms) (nodup_keys_termFreq terms)
    s.term_document_count t, dictGet?_termFreq]
  by_cases htm : t ∈ terms <;> by_cases hs : (lookupScore s t doc_id).isNone <;>
    simp [htm, hs]

theorem document_count_addDocument {α : Type} [DivisionRing α] (s : InvIndex α)
    (doc_id : String) (terms : List String) :
    (addDocument s doc_id terms).document_count =
      if terms = [] then s.document_count else s.document_count + 1 := by
  by_cases h : terms = [] <;> simp [addDocument, h]

/-- Looking up in a key-preserving value map of an association list. -/
theorem dictGet?_mapVals {β γ : Type} (g : String → β → γ) (l : List (String × β))
    (k : String) :
    dictGet? (l.map (fun p => (p.1, g p.1 p.2))) k = (dictGet? l k).map (g k) := by
  induction l with
  | nil => simp
  | cons p t ih =>
    obtain ⟨k', v'⟩ := p
    by_cases h : k' == k
    · have hk : k' = k := by simpa using h
      subst hk
      simp [dictGet?_cons, h]
    · simp [dictGet?_cons, h, ih]

/-- `calculate_tfidf_scores` multiplies every stored posting score by the
term's idf factor (computed from the state it runs on). -/
theorem lookupScore_calculateTfidfScores {α : Type} [DivisionRing α] (lg : α → α)
    (s : InvIndex α) (t d : String) :
    lookupScore (calculateTfidfScores lg s) t d =
      (lookupScore s t d).map (· * idfOf lg s t) := by
  simp only [lookupScore, calculateTfidfScores]
  rw [dictGet?_mapVals (fun u ps => ps.map (fun q => (q.1, q.2 * idfOf lg s u))) s.index t]
  rcases dictGet? s.index t with _ | ps
  · rfl
  · exact dictGet?_mapVals (fun _ v => v * idfOf lg s t) ps d

theorem lookupDf_calculateTfidfScores {α : Type} [DivisionRing α] (lg : α → α)
    (s : InvIndex α) (t : String) :
    lookupDf (calculateTfidfScores lg s) t = lookupDf s t := rfl

theorem document_count_calculateTfidfScores {α : Type} [DivisionRing α] (lg : α → α)
    (s : InvIndex α) :
    (calculateTfidfScores lg s).document_count = s.document_count := rfl

theorem idfOf_calculateTfidfScores {α : Type} [DivisionRing α] (lg : α → α)
    (s : InvIndex α) (t : String) :
    idfOf lg (calculateTfidfScores lg s) t = idfOf lg s t := rfl

/-! ### Theorems: finalize idempotence (C4) and add-after-finalize (C5) -/

/-- C4, counterexample: on the two-document corpus `D1 = ["a"]`,
`D2 = ["b"]`, the first `calculate_tfidf_scores` stores
`1 × ln(2/1) = ln 2` for `("a", D1)`; a second call multiplies by
`ln 2` again, producing `(ln 2)² ≠ ln 2`, so finalize is not idempotent. -/
theorem finalize_not_idempotent :
    lookupScore
        (calculateTfidfScores Real.log (calculateTfidfScores Real.log
          (addDocument (addDocument (emptyIndex ℝ) "D1" ["a"]) "D2" ["b"]))) "a" "D1" ≠
      lookupScore
        (calculateTfidfScores Real.log
          (addDocument (addDocument (emptyIndex ℝ) "D1" ["a"]) "D2" ["b"])) "a" "D1" := by
  have hs2 : lookupScore (addDocument (addDocument (emptyIndex ℝ) "D1" ["a"]) "D2" ["b"])
      "a" "D1" = some 1 := by
    rw [lookupScore_addDocument _ _ _ (by simp)]
    rw [if_neg (by simp)]
    rw [lookupScore_addDocument _ _ _ (by simp)]
    rw [if_pos (by simp)]
    norm_num
  have hdf : lookupDf (addDocument (addDocument (emptyIndex ℝ) "D1" ["a"]) "D2" ["b"])
      "a" = 1 := by
    rw [lookupDf_addDocument _ _ _ (by simp)]
    rw [if_neg (by simp)]
    rw [lookupDf_addDocument _ _ _ (by simp)]
    rw [if_pos (by exact ⟨by simp, by rfl⟩)]
    rfl
  have hdc : (addDocument (addDocument (emptyIndex ℝ) "D1" ["a"]) "D2" ["b"]).document_count
      = 2 := rfl
  have hidf : idfOf Real.log
      (addDocument (addDocument (emptyIndex ℝ) "D1" ["a"]) "D2" ["b"]) "a" = Real.log 2 := by
    rw [idfOf, hdf, hdc]
    norm_num
  have e1 : lookupScore
      (calculateTfidfScores Real.log
        (addDocument (addDocument (emptyIndex ℝ) "D1" ["a"]) "D2" ["b"])) "a" "D1" =
      some (Real.log 2) := by
    rw [lookupScore_calculateTfidfScores, hs2, hidf]
    simp
  have e2 : lookupScore
      (calculateTfidfScores Real.log (calculateTfidfScores Real.log
        (addDocument (addDocument (emptyIndex ℝ) "D1" ["a"]) "D2" ["b"]))) "a" "D1" =
      some (Real.log 2 * Real.log 2) := by
    rw [lookupScore_calculateTfidfScores, e1, idfOf_calculateTfidfScores, hidf]
    simp
  rw [e1, e2]
  intro hcontra
  have heq : Real.log 2 * Real.log 2 = Real.log 2 := Option.some.inj hcontra
  have h0 : 0 < Real.log 2 := Real.log_pos (by norm_num)
  have h1 : Real.log 2 < 1 := by
    have := Real.log_two_lt_d9
    linarith
  nlinarith

/-- C4, amended: a second `calculate_tfidf_scores` call is not a no-op —
it multiplies every stored posting score by the term's idf factor
`ln(doc_count/df)` a second time (df and doc_count are unchanged by
finalize, so the factor is the same both times). -/
theorem finalize_twice_multiplies_idf_again (s : InvIndex ℝ) (t d : String) :
    lookupScore (calculateTfidfScores Real.log (calculateTfidfScores Real.log s)) t d =
      (lookupScore (calculateTfidfScores Real.log s) t d).map
        (· * idfOf Real.log s t) := by
  rw [lookupScore_calculateTfidfScores, idfOf_calculateTfidfScores]

/-- C5, counterexample: `add_document` on a finalized one-document index
is not rejected and not fatal — it mutates the index, raising the
document count from 1 to 2 and storing a posting for the new document. -/
theorem add_document_after_finalize_not_rejected :
    (addDocument (calculateTfidfScores Real.log
        (addDocument (emptyIndex ℝ) "D1" ["a"])) "D2" ["b"]).document_count = 2 ∧
      (calculateTfidfScores Real.log
        (addDocument (emptyIndex ℝ) "D1" ["a"])).document_count = 1 ∧
      (lookupScore (addDocument (calculateTfidfScores Real.log
        (addDocument (emptyIndex ℝ) "D1" ["a"])) "D2" ["b"]) "b" "D2").isSome = true := by
  refine ⟨rfl, rfl, ?_⟩
  rw [lookupScore_addDocument _ _ _ (by simp)]
  rw [if_pos (by simp)]
  rfl

/-- C5, amended: calling `add_document` on a finalized index is accepted
and mutates it exactly as during ingestion: the document count rises by
one and each of the new document's terms gets the raw `count/len`
posting for it. -/
theorem add_document_after_finalize_mutates (s : InvIndex ℝ) (doc_id : String)
    (terms : List String) (hne : terms ≠ []) (t : String) (ht : t ∈ terms) :
    (addDocument (calculateTfidfScores Real.log s) doc_id terms).document_count =
        (calculateTfidfScores Real.log s).document_count + 1 ∧
      lookupScore (addDocument (calculateTfidfScores Real.log s) doc_id terms) t doc_id =
        some ((terms.count t : ℝ) / (terms.length : ℝ)) := by
  constructor
  · rw [document_count_addDocument, if_neg hne]
  · rw [lookupScore_addDocument _ _ _ hne, if_pos ⟨ht, rfl⟩]

/-- Witness for `add_document_after_finalize_mutates` at the concrete
finalized empty index with a one-token document. -/
theorem add_document_after_finalize_mutates_witness :
    (addDocument (calculateTfidfScores Real.log (emptyIndex ℝ)) "D2" ["b"]).document_count =
        (calculateTfidfScores Real.log (emptyIndex ℝ)).document_count + 1 ∧
      lookupScore (addDocument (calculateTfidfScores Real.log (emptyIndex ℝ)) "D2" ["b"])
          "b" "D2" =
        some (((["b"] : List String).count "b" : ℝ) / ((["b"] : List String).length : ℝ)) :=
  add_document_after_finalize_mutates (emptyIndex ℝ) "D2" ["b"] (by simp) "b" (by simp)

/-! ### Theorems: TF-IDF correctness post-finalize (C1)

A corpus is a list of `(doc_id, tokens)` pairs fed to `add_document` in
order.  The reference quantities `tf`, `df` and `doc_count` are defined
from the corpus in the spec's terms and compared with what the code
stores. -/

/-- Ingesting a corpus: `add_document` for each `(doc_id, tokens)` pair,
starting from a fresh `InvertedIndex()`. -/
def buildIndex {α : Type} [DivisionRing α] (docs : List (String × List String)) :
    InvIndex α :=
  docs.foldl (fun s e => addDocument s e.1 e.2) (emptyIndex α)

/-- Reference document count: documents with a non-empty token list
(`add_document` returns early on empty token lists). -/
def specDocCount (docs : List (String × List String)) : ℕ :=
  (docs.filter (fun e => !e.2.isEmpty)).length

/-- Reference document frequency of a term: how many corpus documents
contain it. -/
def specDf (docs : List (String × List String)) (t : String) : ℕ :=
  (docs.filter (fun e => e.2.contains t)).length

/-- Reference term frequency `tf(t, d)`: occurrences of `t` in document
`d` divided by `d`'s token count (0 when `d` is not in the corpus). -/
def specTf {α : Type} [DivisionRing α] (docs : List (String × List String))
    (t d : String) : α :=
  match docs.find? (fun e => e.1 == d) with
  | some e => (e.2.count t : α) / (e.2.length : α)
  | none => 0

/-- Reference pre-finalize posting: `count/len` for the corpus document
`d` when it contains `t`, absent otherwise. -/
def specRawScore? {α : Type} [DivisionRing α] (docs : List (String × List String))
    (t d : String) : Option α :=
  match docs.find? (fun e => e.1 == d) with
  | some e =>
    if t ∈ e.2 then some ((e.2.count t : α) / (e.2.length : α)) else none
  | none => none

theorem find?_doc_none (docs : List (String × List String)) (d : String)
    (h : d ∉ docs.map Prod.fst) : docs.find? (fun e => e.1 == d) = none := by
  rw [List.find?_eq_none]
  intro x hx hbeq
  exact h (List.mem_map.mpr ⟨x, hx, by simpa using hbeq⟩)

/-- The ingestion invariant: on a duplicate-free corpus, the built index
has the reference document count, the reference df for every term, and
the reference raw posting for every term/document pair. -/
theorem buildIndex_invariant {α : Type} [DivisionRing α]
    (docs : List (String × List String)) (hnd : (docs.map Prod.fst).Nodup) :
    (buildIndex (α := α) docs).document_count = specDocCount docs ∧
      (∀ t, lookupDf (buildIndex (α := α) docs) t = specDf docs t) ∧
      (∀ t d, lookupScore (buildIndex (α := α) docs) t d = specRawScore? docs t d) := by
  induction docs using List.reverseRecOn with
  | nil =>
    refine ⟨rfl, fun t => rfl, fun t d => rfl⟩
  | append_singleton l e ih =>
    obtain ⟨d0, ts0⟩ := e
    have hsplit : (l.map Prod.fst).Nodup ∧ d0 ∉ l.map Prod.fst := by
      rw [List.map_append, List.nodup_append] at hnd
      exact ⟨hnd.1, fun hm => hnd.2.2 hm (by simp)⟩
    obtain ⟨ihc, ihdf, ihsc⟩ := ih hsplit.1
    have hb : buildIndex (α := α) (l ++ [(d0, ts0)]) =
        addDocument (buildIndex (α := α) l) d0 ts0 := by
      rw [buildIndex, buildIndex, List.foldl_append]
      rfl
    have hfind : l.find? (fun e => e.1 == d0) = none := find?_doc_none l d0 hsplit.2
    have hnew : ∀ t, lookupScore (buildIndex (α := α) l) t d0 = none := by
      intro t
      rw [ihsc t d0, specRawScore?, hfind]
    by_cases hts : ts0 = []
    · subst hts
      have hsame : addDocument (buildIndex (α := α) l) d0 [] = buildIndex (α := α) l := by
        rw [addDocument, if_pos rfl]
      rw [hb, hsame]
      refine ⟨?_, ?_, ?_⟩
      · rw [ihc]
        simp [specDocCount, List.filter_append]
      · intro t
        rw [ihdf t]
        simp [specDf, List.filter_append]
      · intro t d
        rw [ihsc t d]
        simp only [specRawScore?, List.find?_append]
        rcases hf : l.find? (fun e => e.1 == d) with _ | q
        · rw [hf]
          by_cases hd : d0 = d
          · subst hd
            simp
          · simp [show (d0 == d) = false by simpa using hd]
        · rw [hf]
          simp
    · rw [hb]
      refine ⟨?_, ?_, ?_⟩
      · rw [document_count_addDocument, if_neg hts, ihc]
        simp [specDocCount, List.filter_append, hts]
      · intro t
        rw [lookupDf_addDocument _ _ _ hts t]
        by_cases htm : t ∈ ts0
        · rw [if_pos ⟨htm, by rw [hnew t]; rfl⟩, ihdf t]
          simp [specDf, List.filter_append, List.contains, List.elem_iff, htm]
        · rw [if_neg (by intro hc; exact htm hc.1), ihdf t]
          simp [specDf, List.filter_append, List.contains, List.elem_iff, htm]
      · intro t d
        rw [lookupScore_addDocument _ _ _ hts t d]
        simp only [specRawScore?, List.find?_append]
        by_cases hd : d = d0
        · subst hd
          rw [hfind]
          by_cases htm : t ∈ ts0
          · rw [if_pos ⟨htm, rfl⟩]
            simp [htm]
          · rw [if_neg (by intro hc; exact htm hc.1), hnew t]
            simp [htm]
        · rw [if_neg (by intro hc; exact hd hc.2), ihsc t d]
          simp only [specRawScore?]
          rcases hf : l.find? (fun e => e.1 == d) with _ | q
          · rw [hf]
            simp [show (d0 == d) = false by simpa using fun hh : d0 = d => hd hh.symm]
          · rw [hf]
            simp

/-- C1: after ingesting any duplicate-free corpus and running
`calculate_tfidf_scores`, every stored posting score for a term `t` and
document `d` equals `tf(t,d) × ln(doc_count/df[t])` — here exactly, so
in particular within `1e-9`. -/
theorem tfidf_scores_post_finalize (docs : List (String × List String))
    (hnd : (docs.map Prod.fst).Nodup) (t d : String) (score : ℝ)
    (hlook : lookupScore (calculateTfidfScores Real.log (buildIndex docs)) t d =
      some score) :
    |score -
        specTf docs t d *
          Real.log ((specDocCount docs : ℝ) / (specDf docs t : ℝ))| ≤ 1e-9 := by
  obtain ⟨ihc, ihdf, ihsc⟩ := buildIndex_invariant (α := ℝ) docs hnd
  rw [lookupScore_calculateTfidfScores, ihsc t d] at hlook
  rcases hraw : specRawScore? (α := ℝ) docs t d with _ | raw
  · rw [hraw] at hlook
    exact Option.noConfusion hlook
  · rw [hraw] at hlook
    have hscore : score = raw * idfOf Real.log (buildIndex docs) t :=
      (Option.some.inj hlook).symm
    rcases hf : docs.find? (fun e => e.1 == d) with _ | e
    · simp only [specRawScore?, hf] at hraw
      exact Option.noConfusion hraw
    · simp only [specRawScore?, hf] at hraw
      by_cases htm : t ∈ e.2
      · rw [if_pos htm] at hraw
        have hrawv : raw = (e.2.count t : ℝ) / (e.2.length : ℝ) :=
          (Option.some.inj hraw).symm
        have htf : specTf docs t d = (e.2.count t : ℝ) / (e.2.length : ℝ) := by
          rw [specTf, hf]
        have hdfpos : 0 < specDf docs t := by
          have hmem : e ∈ docs := List.mem_of_find?_eq_some hf
          have hmf : e ∈ docs.filter (fun q => q.2.contains t) :=
            List.mem_filter.mpr ⟨hmem, by simpa [List.contains, List.elem_iff] using htm⟩
          have := List.length_pos.mpr (List.ne_nil_of_mem hmf)
          simpa [specDf] using this
        have hidf : idfOf Real.log (buildIndex docs) t =
            Real.log ((specDocCount docs : ℝ) / (specDf docs t : ℝ)) := by
          rw [idfOf, ihdf t, ihc, if_pos hdfpos]
        rw [hscore, hrawv, htf, hidf, sub_self, abs_zero]
        norm_num
      · rw [if_neg htm] at hraw
        exact absurd hraw (by simp)

/-- Witness for `tfidf_scores_post_finalize` on the one-document corpus
`D1 = ["a"]`, whose finalized score is `1 × ln(1/1) = 0`. -/
theorem tfidf_scores_post_finalize_witness :
    (([("D1", ["a"])] : List (String × List String)).map Prod.fst).Nodup ∧
      lookupScore (calculateTfidfScores Real.log (buildIndex [("D1", ["a"])]))
          "a" "D1" = some 0 ∧
      |(0 : ℝ) -
          specTf [("D1", ["a"])] "a" "D1" *
            Real.log ((specDocCount [("D1", ["a"])] : ℝ) /
              (specDf [("D1", ["a"])] "a" : ℝ))| ≤ 1e-9 := by
  have hb : buildIndex [("D1", ["a"])] = addDocument (emptyIndex ℝ) "D1" ["a"] := rfl
  have hl : lookupScore (calculateTfidfScores Real.log (buildIndex [("D1", ["a"])]))
      "a" "D1" = some 0 := by
    rw [hb, lookupScore_calculateTfidfScores,
      lookupScore_addDocument _ _ _ (by simp), if_pos ⟨by simp, rfl⟩]
    have hdc : (addDocument (emptyIndex ℝ) "D1" ["a"]).document_count = 1 := rfl
    have hdfv : lookupDf (addDocument (emptyIndex ℝ) "D1" ["a"]) "a" = 1 := rfl
    have hidf : idfOf Real.log (addDocument (emptyIndex ℝ) "D1" ["a"]) "a" = 0 := by
      rw [idfOf, hdfv, hdc]
      norm_num
    rw [hidf]
    simp
  exact ⟨by simp, hl, tfidf_scores_post_finalize [("D1", ["a"])] (by simp) "a" "D1" 0 hl⟩

/-! ### Theorems: frontier uniqueness (C6) and capacity rejection (C10) -/

/-- One frontier API call: `add_url(url, priority)` or `get_next_url()`. -/
inductive FrontierOp where
  | add (url : String) (priority : ℚ)
  | next

/-- Run a call sequence against a frontier, recording for every
`add_url` call its URL and returned boolean. -/
def addEvents (f : Frontier) : List FrontierOp → List (String × Bool)
  | [] => []
  | FrontierOp.add u p :: ops =>
    (u, (addUrl f u p).1) :: addEvents (addUrl f u p).2 ops
  | FrontierOp.next :: ops => addEvents (getNextUrl f).2 ops

theorem seen_addUrl_mono (f : Frontier) (u : String) (p : ℚ) (x : String)
    (h : x ∈ f.seen) : x ∈ (addUrl f u p).2.seen := by
  rw [addUrl]
  split
  · exact h
  · split
    · exact h
    · exact List.mem_cons_of_mem u h

theorem seen_getNextUrl (f : Frontier) : (getNextUrl f).2.seen = f.seen := by
  rw [getNextUrl]
  rcases heappop f.queue with _ | r
  · rfl
  · rfl

theorem addUrl_false_of_seen (f : Frontier) (u : String) (p : ℚ) (h : u ∈ f.seen) :
    (addUrl f u p).1 = false := by
  rw [addUrl, if_pos h]

theorem mem_seen_of_addUrl_true (f : Frontier) (u : String) (p : ℚ)
    (h : (addUrl f u p).1 = true) : u ∈ (addUrl f u p).2.seen := by
  by_cases h1 : u ∈ f.seen
  · rw [addUrl, if_pos h1] at h
    exact absurd h (by simp)
  · by_cases h2 : f.max_size ≤ f.queue.length
    · rw [addUrl, if_neg h1, if_pos h2] at h
      exact absurd h (by simp)
    · rw [addUrl, if_neg h1, if_neg h2]
      exact List.mem_cons_self u _

theorem addEvents_no_true_of_seen (ops : List FrontierOp) (f : Frontier) (u : String)
    (h : u ∈ f.seen) :
    (addEvents f ops).filter (fun e => e.1 == u && e.2) = [] := by
  induction ops generalizing f with
  | nil => rfl
  | cons op ops ih =>
    cases op with
    | add u' p =>
      rw [addEvents, List.filter_cons]
      have hrest := ih (addUrl f u' p).2 (seen_addUrl_mono f u' p u h)
      by_cases hu : u' = u
      · subst hu
        rw [addUrl_false_of_seen f u' p h]
        simpa using hrest
      · have : ((u', (addUrl f u' p).1).1 == u && (u', (addUrl f u' p).1).2) = false := by
          simp [hu]
        rw [this]
        simpa using hrest
    | next =>
      rw [addEvents]
      exact ih (getNextUrl f).2 (by rw [seen_getNextUrl]; exact h)

/-- C6: for any frontier start state, any sequence of `add_url` and
`get_next_url` calls, and any URL `u`, at most one `add_url(u, _)` call
in the sequence returns `True`, whatever priorities are passed: a `True`
return records `u` in `seen_urls`, `seen_urls` only ever grows, and a
seen URL is always refused. -/
theorem add_url_true_at_most_once (f : Frontier) (ops : List FrontierOp) (u : String) :
    ((addEvents f ops).filter (fun e => e.1 == u && e.2)).length ≤ 1 := by
  induction ops generalizing f with
  | nil => simp [addEvents]
  | cons op ops ih =>
    cases op with
    | add u' p =>
      rw [addEvents, List.filter_cons]
      by_cases hu : (u' == u && (addUrl f u' p).1) = true
      · rw [if_pos (by simpa using hu)]
        have hu2 : u' = u := by
          rcases Bool.and_eq_true_iff.mp hu with ⟨h1, _⟩
          simpa using h1
        have htrue : (addUrl f u' p).1 = true := (Bool.and_eq_true_iff.mp hu).2
        subst hu2
        rw [addEvents_no_true_of_seen ops (addUrl f u' p).2 u'
          (mem_seen_of_addUrl_true f u' p htrue)]
        simp
      · rw [if_neg (by simpa using hu)]
        exact ih (addUrl f u' p).2
    | next =>
      rw [addEvents]
      exact ih (getNextUrl f).2

/-- C10: an `add_url` refused for capacity (URL unseen, queue full)
returns `False` and leaves the frontier — queue, seen set, clock —
exactly unchanged; consequently the same URL is accepted by any later
frontier state in which it is still unseen and the queue is below
capacity. -/
theorem add_url_capacity_rejection_stateless (f : Frontier) (u : String) (p : ℚ)
    (hseen : u ∉ f.seen) (hcap : f.max_size ≤ f.queue.length) :
    addUrl f u p = (false, f) ∧
      (∀ (f₂ : Frontier) (p₂ : ℚ), u ∉ f₂.seen → f₂.queue.length < f₂.max_size →
        (addUrl f₂ u p₂).1 = true) := by
  constructor
  · rw [addUrl, if_neg hseen, if_pos hcap]
  · intro f₂ p₂ h1 h2
    rw [addUrl, if_neg h1, if_neg (not_le.mpr h2)]

/-- Witness for `add_url_capacity_rejection_stateless`: a frontier of
capacity 1 holding one URL refuses a new URL `"b"` unchanged, and after
one `get_next_url` the same URL is accepted. -/
theorem add_url_capacity_rejection_stateless_witness :
    ("b" ∉ (addUrl (emptyFrontier 1) "a" 1).2.seen ∧
        (addUrl (emptyFrontier 1) "a" 1).2.max_size ≤
          (addUrl (emptyFrontier 1) "a" 1).2.queue.length) ∧
      addUrl (addUrl (emptyFrontier 1) "a" 1).2 "b" 1 =
        (false, (addUrl (emptyFrontier 1) "a" 1).2) ∧
      "b" ∉ (getNextUrl (addUrl (emptyFrontier 1) "a" 1).2).2.seen ∧
      (getNextUrl (addUrl (emptyFrontier 1) "a" 1).2).2.queue.length <
        (getNextUrl (addUrl (emptyFrontier 1) "a" 1).2).2.max_size ∧
      (addUrl (getNextUrl (addUrl (emptyFrontier 1) "a" 1).2).2 "b" 1).1 = true := by
  have h1 : "b" ∉ (addUrl (emptyFrontier 1) "a" 1).2.seen := by
    simp [addUrl, emptyFrontier]
  have h2 : (addUrl (emptyFrontier 1) "a" 1).2.max_size ≤
      (addUrl (emptyFrontier 1) "a" 1).2.queue.length := by
    simp [addUrl, emptyFrontier, heappush, siftdownLoop]
  have h3 : "b" ∉ (getNextUrl (addUrl (emptyFrontier 1) "a" 1).2).2.seen := by
    simp [addUrl, emptyFrontier, heappush, siftdownLoop, getNextUrl, heappop]
  have h4 : (getNextUrl (addUrl (emptyFrontier 1) "a" 1).2).2.queue.length <
      (getNextUrl (addUrl (emptyFrontier 1) "a" 1).2).2.max_size := by
    simp [addUrl, emptyFrontier, heappush, siftdownLoop, getNextUrl, heappop]
  obtain ⟨hmain1, hmain2⟩ :=
    add_url_capacity_rejection_stateless (addUrl (emptyFrontier 1) "a" 1).2 "b" 1 h1 h2
  exact ⟨⟨h1, h2⟩, hmain1, h3, h4,
    hmain2 (getNextUrl (addUrl (emptyFrontier 1) "a" 1).2).2 1 h3 h4⟩

/-! ### The `heapq` invariant and its preservation (towards C7)

`heapq` maintains, w.r.t. the item order `__lt__`, that no child
compares less than its parent; with `URLInfo.__lt__` being
`a.priority > b.priority` this reads: every child's priority is at most
its parent's. -/

/-- The binary-heap invariant of `heapq` for `URLInfo.__lt__`: the
element at index `i > 0` has priority at most that of its parent at
`(i-1)/2`. -/
def IsHeap (l : List URLInfo) : Prop :=
  ∀ i, i < l.length → 0 < i →
    (l.getD i default).priority ≤ (l.getD ((i - 1) / 2) default).priority

instance IsHeap.decidable (l : List URLInfo) : Decidable (IsHeap l) :=
  Nat.decidableBallLT l.length _

theorem getD_set_self {γ : Type} [Inhabited γ] (l : List γ) (i : ℕ) (a : γ)
    (h : i < l.length) : (l.set i a).getD i default = a := by
  rw [List.getD_eq_getElem?_getD, List.getElem?_set_self h]
  rfl

theorem getD_set_ne {γ : Type} [Inhabited γ] (l : List γ) (i j : ℕ) (a : γ)
    (h : i ≠ j) : (l.set i a).getD j default = l.getD j default := by
  rw [List.getD_eq_getElem?_getD, List.getElem?_set_ne h, ← List.getD_eq_getElem?_getD]

theorem getD_mem {γ : Type} [Inhabited γ] (l : List γ) (i : ℕ) (h : i < l.length) :
    l.getD i default ∈ l := by
  rw [List.getD_eq_getElem?_getD, List.getElem?_eq_getElem h]
  exact List.getElem_mem h

/-- In a heap the root has the maximum priority. -/
theorem isHeap_root_max (l : List URLInfo) (h : IsHeap l) :
    ∀ i, i < l.length → (l.getD i default).priority ≤ (l.getD 0 default).priority := by
  intro i
  induction i using Nat.strong_induction_on with
  | _ i ih =>
    intro hi
    rcases Nat.eq_zero_or_pos i with h0 | h0
    · subst h0
      exact le_refl _
    · have hp : (i - 1) / 2 < i := by omega
      exact le_trans (h i hi h0) (ih ((i - 1) / 2) hp (lt_trans hp hi))

theorem length_siftdownLoop : ∀ (pos : ℕ) (heap : List URLInfo) (ni : URLInfo),
    (siftdownLoop heap pos ni).length = heap.length := by
  intro pos
  induction pos using Nat.strong_induction_on with
  | _ pos ih =>
    intro heap ni
    rw [siftdownLoop]
    by_cases h0 : 0 < pos
    · simp only [h0, if_true]
      split
      · rw [ih ((pos - 1) / 2) (by omega)]
        exact List.length_set ..
      · exact List.length_set ..
    · simp only [h0, if_false]
      exact List.length_set ..

theorem mem_siftdownLoop : ∀ (pos : ℕ) (heap : List URLInfo) (ni : URLInfo),
    pos < heap.length → ∀ x, x ∈ siftdownLoop heap pos ni → x ∈ heap ∨ x = ni := by
  intro pos
  induction pos using Nat.strong_induction_on with
  | _ pos ih =>
    intro heap ni hpos x hx
    rw [siftdownLoop] at hx
    by_cases h0 : 0 < pos
    · simp only [h0, if_true] at hx
      split at hx
      · have hplt : (pos - 1) / 2 < pos := by omega
        rcases ih ((pos - 1) / 2) hplt (heap.set pos (heap.getD ((pos - 1) / 2) default))
            ni (by rw [List.length_set]; omega) x hx with hmem | hni
        · rcases List.mem_or_eq_of_mem_set hmem with hmem2 | hpar
          · exact Or.inl hmem2
          · exact Or.inl (hpar ▸ getD_mem heap ((pos - 1) / 2) (by omega))
        · exact Or.inr hni
      · rcases List.mem_or_eq_of_mem_set hx with hmem | hni
        · exact Or.inl hmem
        · exact Or.inr hni
    · simp only [h0, if_false] at hx
      rcases List.mem_or_eq_of_mem_set hx with hmem | hni
      · exact Or.inl hmem
      · exact Or.inr hni

/-- Precondition under which `siftdownLoop` restores the heap invariant:
all parent-child constraints hold except those about the hole `pos`
itself; the children of the hole are bounded by `newitem` and (when the
hole has a parent) by the hole's parent. -/
def SiftdownInv (heap : List URLInfo) (pos : ℕ) (ni : URLInfo) : Prop :=
  (∀ i, i < heap.length → 0 < i → i ≠ pos → (i - 1) / 2 ≠ pos →
      (heap.getD i default).priority ≤ (heap.getD ((i - 1) / 2) default).priority) ∧
  (∀ i, i < heap.length → 0 < i → i ≠ pos → (i - 1) / 2 = pos →
      (heap.getD i default).priority ≤ ni.priority ∧
      (0 < pos →
        (heap.getD i default).priority ≤ (heap.getD ((pos - 1) / 2) default).priority))

theorem isHeap_siftdownLoop : ∀ (pos : ℕ) (heap : List URLInfo) (ni : URLInfo),
    pos < heap.length → SiftdownInv heap pos ni → IsHeap (siftdownLoop heap pos ni) := by
  intro pos
  induction pos using Nat.strong_induction_on with
  | _ pos ih =>
    intro heap ni hpos hinv
    rw [siftdownLoop]
    by_cases h0 : 0 < pos
    · simp only [h0, if_true]
      split
      · -- `newitem < parent`: move the parent down and recurse at the parent slot
        rename_i hlt
        refine ih ((pos - 1) / 2) (by omega) _ ni (by rw [List.length_set]; omega) ?_
        have hplt : (pos - 1) / 2 < pos := by omega
        constructor
        · intro i hi h0i hip hipp
          rw [List.length_set] at hi
          by_cases hpi : i = pos
          · exact absurd (by omega : (i - 1) / 2 = (pos - 1) / 2) (hpi ▸ hipp)
          · rw [getD_set_ne _ _ _ _ (fun hh => hpi hh.symm)]
            by_cases hcp : (i - 1) / 2 = pos
            · rw [hcp, getD_set_self _ _ _ hpos]
              exact (hinv.2 i hi h0i hpi hcp).2 h0
            · rw [getD_set_ne _ _ _ _ (fun hh => hcp hh.symm)]
              exact hinv.1 i hi h0i hpi hcp
        · intro i hi h0i hip hipp
          rw [List.length_set] at hi
          have hltp : (heap.getD ((pos - 1) / 2) default).priority < ni.priority := hlt
          constructor
          · by_cases hpi : i = pos
            · rw [hpi, getD_set_self _ _ _ hpos]
              exact le_of_lt hltp
            · rw [getD_set_ne _ _ _ _ (fun hh => hpi hh.symm)]
              have h1 := hinv.1 i hi h0i hpi (by omega)
              rw [hipp] at h1
              exact le_trans h1 (le_of_lt hltp)
          · intro hgpos
            have hgg_ne : ((pos - 1) / 2 - 1) / 2 ≠ pos := by omega
            rw [getD_set_ne _ _ _ _ (fun hh => hgg_ne hh.symm)]
            have hmid : (heap.getD ((pos - 1) / 2) default).priority ≤
                (heap.getD (((pos - 1) / 2 - 1) / 2) default).priority :=
              hinv.1 ((pos - 1) / 2) (by omega) hgpos (by omega) (by omega)
            by_cases hpi : i = pos
            · rw [hpi, getD_set_self _ _ _ hpos]
              exact hmid
            · rw [getD_set_ne _ _ _ _ (fun hh => hpi hh.symm)]
              have h1 := hinv.1 i hi h0i hpi (by omega)
              rw [hipp] at h1
              exact le_trans h1 hmid
      · -- `newitem` stays at `pos`
        rename_i hnlt
        intro i hi h0i
        rw [List.length_set] at hi
        by_cases hpi : i = pos
        · subst hpi
          rw [getD_set_self _ _ _ hpos, getD_set_ne _ _ _ _ (by omega)]
          exact le_of_not_lt (fun hc => hnlt hc)
        · rw [getD_set_ne _ _ _ _ (fun hh => hpi hh.symm)]
          by_cases hcp : (i - 1) / 2 = pos
          · rw [hcp, getD_set_self _ _ _ hpos]
            exact (hinv.2 i hi h0i hpi hcp).1
          · rw [getD_set_ne _ _ _ _ (fun hh => hcp hh.symm)]
            exact hinv.1 i hi h0i hpi hcp
    · -- `pos = 0`
      have hz : pos = 0 := by omega
      subst hz
      rw [if_neg h0]
      intro i hi h0i
      rw [List.length_set] at hi
      have hpi : i ≠ 0 := by omega
      rw [getD_set_ne _ _ _ _ (fun hh => hpi hh.symm)]
      by_cases hcp : (i - 1) / 2 = 0
      · rw [hcp, getD_set_self _ _ _ hpos]
        exact (hinv.2 i hi h0i hpi hcp).1
      · rw [getD_set_ne _ _ _ _ (fun hh => hcp hh.symm)]
        exact hinv.1 i hi h0i hpi hcp

theorem getD_append_left {γ : Type} [Inhabited γ] (l₁ l₂ : List γ) (i : ℕ)
    (h : i < l₁.length) : (l₁ ++ l₂).getD i default = l₁.getD i default := by
  rw [List.getD_eq_getElem?_getD, List.getElem?_append_left h, ← List.getD_eq_getElem?_getD]

theorem getD_eq_getElem {γ : Type} [Inhabited γ] (l : List γ) (i : ℕ)
    (h : i < l.length) : l.getD i default = l.get ⟨i, h⟩ := by
  rw [List.getD_eq_getElem?_getD, List.getElem?_eq_getElem h]
  rfl

theorem length_heappush (heap : List URLInfo) (x : URLInfo) :
    (heappush heap x).length = heap.length + 1 := by
  rw [heappush, length_siftdownLoop, List.length_append]
  rfl

theorem mem_heappush (heap : List URLInfo) (x y : URLInfo) (h : y ∈ heappush heap x) :
    y ∈ heap ∨ y = x := by
  rcases mem_siftdownLoop heap.length (heap ++ [x]) x (by simp) y h with hm | he
  · rcases List.mem_append.mp hm with h1 | h2
    · exact Or.inl h1
    · exact Or.inr (by simpa using h2)
  · exact Or.inr he

/-- `heappush` preserves the heap invariant. -/
theorem isHeap_heappush (heap : List URLInfo) (x : URLInfo) (h : IsHeap heap) :
    IsHeap (heappush heap x) := by
  rw [heappush]
  refine isHeap_siftdownLoop heap.length (heap ++ [x]) x (by simp) ⟨?_, ?_⟩
  · intro i hi h0i hip hipp
    simp only [List.length_append, List.length_singleton] at hi
    have hilt : i < heap.length := by omega
    have hplt : (i - 1) / 2 < heap.length := by omega
    rw [getD_append_left _ _ _ hilt, getD_append_left _ _ _ hplt]
    exact h i hilt h0i
  · intro i hi h0i hip hipp
    exfalso
    simp only [List.length_append, List.length_singleton] at hi
    omega

/-- The invariant carried through `siftupLoop`: every parent-child
constraint holds except those whose parent is the hole `pos`. -/
def AlmostHeap (heap : List URLInfo) (pos : ℕ) : Prop :=
  ∀ i, i < heap.length → 0 < i → (i - 1) / 2 ≠ pos →
    (heap.getD i default).priority ≤ (heap.getD ((i - 1) / 2) default).priority

/-- The second `siftupLoop` invariant: children of the hole are bounded
by the hole's parent (vacuous at the root). -/
def GrandHeap (heap : List URLInfo) (pos : ℕ) : Prop :=
  ∀ i, i < heap.length → 0 < i → i ≠ pos → (i - 1) / 2 = pos → 0 < pos →
    (heap.getD i default).priority ≤ (heap.getD ((pos - 1) / 2) default).priority

theorem siftupLoop_spec : ∀ (n : ℕ) (heap : List URLInfo) (pos : ℕ),
    heap.length - pos ≤ n → pos < heap.length → AlmostHeap heap pos → GrandHeap heap pos →
    (siftupLoop heap pos).1.length = heap.length ∧
      (siftupLoop heap pos).2 < heap.length ∧
      heap.length ≤ 2 * (siftupLoop heap pos).2 + 1 ∧
      AlmostHeap (siftupLoop heap pos).1 (siftupLoop heap pos).2 ∧
      (∀ x, x ∈ (siftupLoop heap pos).1 → x ∈ heap) := by
  intro n
  induction n with
  | zero =>
    intro heap pos hfuel hpos _ _
    omega
  | succ n ihn =>
    intro heap pos hfuel hpos hAH hGH
    rw [siftupLoop]
    by_cases hch : 2 * pos + 1 < heap.length
    · rw [dif_pos hch]
      generalize hc : (if 2 * pos + 1 + 1 < heap.length ∧
          ¬ urlLt (heap.getD (2 * pos + 1) default) (heap.getD (2 * pos + 1 + 1) default)
        then 2 * pos + 1 + 1 else 2 * pos + 1) = c
      have hcrange : 2 * pos + 1 ≤ c ∧ c < heap.length ∧ c ≤ 2 * pos + 2 := by
        rw [← hc]
        split
        · rename_i hcond
          exact ⟨by omega, hcond.1, by omega⟩
        · exact ⟨le_refl _, hch, by omega⟩
      obtain ⟨hc1, hc2, hc3⟩ := hcrange
      have hcparent : (c - 1) / 2 = pos := by omega
      have hsib : ∀ s, s < heap.length → 0 < s → (s - 1) / 2 = pos → s ≠ c →
          (heap.getD s default).priority ≤ (heap.getD c default).priority := by
        intro s hs h0s hsp hsc
        have hs2 : s = 2 * pos + 1 ∨ s = 2 * pos + 2 := by omega
        rw [← hc] at hsc ⊢
        split at hsc
        · rename_i hcond
          have hseq : s = 2 * pos + 1 := by
            rcases hs2 with h1 | h2
            · exact h1
            · exact absurd h2 (by simpa using hsc)
          subst hseq
          split
          · exact le_of_not_lt (fun hcontra => hcond.2 hcontra)
          · rename_i hcond2
            exact absurd hcond hcond2
        · rename_i hcond
          have hseq : s = 2 * pos + 2 := by
            rcases hs2 with h1 | h2
            · exact absurd h1 (by simpa using hsc)
            · exact h2
          subst hseq
          push_neg at hcond
          have hlt2 : urlLt (heap.getD (2 * pos + 1) default)
              (heap.getD (2 * pos + 1 + 1) default) := hcond (by omega)
          split
          · rename_i hcond2
            exact absurd hlt2 hcond2.2
          · exact le_of_lt hlt2
      set arr := heap.set pos (heap.getD c default) with harr
      have harrlen : arr.length = heap.length := List.length_set ..
      have hAH2 : AlmostHeap arr c := by
        intro i hi h0i hipne
        rw [harrlen] at hi
        by_cases hpi : i = pos
        · subst hpi
          have h0p : 0 < i := h0i
          rw [harr, getD_set_self _ _ _ hpos,
            getD_set_ne _ _ _ _ (by omega : i ≠ (i - 1) / 2)]
          exact hGH c hc2 (by omega) (by omega) hcparent h0i
        · rw [harr, getD_set_ne _ _ _ _ (fun hh => hpi hh.symm)]
          by_cases hcp : (i - 1) / 2 = pos
          · rw [hcp, getD_set_self _ _ _ hpos]
            by_cases hic : i = c
            · subst hic
              exact le_refl _
            · exact hsib i hi h0i hcp hic
          · rw [getD_set_ne _ _ _ _ (fun hh => hcp hh.symm)]
            exact hAH i hi h0i hcp
      have hGH2 : GrandHeap arr c := by
        intro i hi h0i hine hip h0c
        rw [harrlen] at hi
        have hipos : i ≠ pos := by omega
        rw [harr, getD_set_ne _ _ _ _ (fun hh => hipos hh.symm), hcparent,
          getD_set_self _ _ _ hpos]
        have h1 := hAH i hi h0i (by omega)
        rw [hip] at h1
        exact h1
      obtain ⟨hl, hp, hb, hA, hm⟩ := ihn arr c (by omega) (by omega) hAH2 hGH2
      refine ⟨by rw [hl, harrlen], by rw [harrlen] at hp; exact hp,
        by rw [harrlen] at hb; exact hb, hA, ?_⟩
      intro x hx
      rcases List.mem_or_eq_of_mem_set (hm x hx) with hm2 | he
      · exact hm2
      · exact he ▸ getD_mem heap c hc2
    · rw [dif_neg hch]
      exact ⟨rfl, hpos, by omega, hAH, fun x hx => hx⟩

/-- `_siftup` from the root restores the heap invariant given that only
the root constraint may be broken, and only permutes-or-drops elements. -/
theorem siftup_zero_spec (arr : List URLInfo) (h0 : 0 < arr.length)
    (hAH : AlmostHeap arr 0) :
    IsHeap (siftup arr 0) ∧ (siftup arr 0).length = arr.length ∧
      (∀ x, x ∈ siftup arr 0 → x ∈ arr) := by
  obtain ⟨hl, hp, hb, hA, hm⟩ := siftupLoop_spec arr.length arr 0 (by omega) h0 hAH
    (fun i hi h0i hine hip h0c => absurd h0c (by omega))
  rw [siftup]
  refine ⟨?_, ?_, ?_⟩
  · refine isHeap_siftdownLoop _ _ _ (by rw [hl]; exact hp) ⟨?_, ?_⟩
    · intro i hi h0i hip hipp
      exact hA i hi h0i hipp
    · intro i hi h0i hip hipp
      exfalso
      rw [hl] at hi
      omega
  · rw [length_siftdownLoop, hl]
  · intro x hx
    rcases mem_siftdownLoop _ _ _ (by rw [hl]; exact hp) x hx with hm2 | he
    · exact hm x hm2
    · exact he ▸ getD_mem arr 0 h0

theorem getLastD_mem (l : List URLInfo) (h : l ≠ []) : l.getLastD default ∈ l := by
  rw [List.getLastD_eq_getLast?, List.getLast?_eq_getLast l h]
  exact List.getLast_mem h

theorem getD_dropLast (l : List URLInfo) (i : ℕ) (h : i < l.length - 1) :
    l.dropLast.getD i default = l.getD i default := by
  rw [List.getD_eq_getElem?_getD, List.getD_eq_getElem?_getD, List.getElem?_dropLast,
    if_pos h]

/-- `heappop` on a non-empty heap returns the root — the element of
maximum priority — and leaves a one-smaller heap whose elements all come
from the original. -/
theorem heappop_spec (heap : List URLInfo) (hne : heap ≠ []) (hheap : IsHeap heap) :
    ∃ r rest, heappop heap = some (r, rest) ∧ r = heap.getD 0 default ∧
      rest.length = heap.length - 1 ∧ IsHeap rest ∧ (∀ x, x ∈ rest → x ∈ heap) := by
  rcases heap with _ | ⟨a, t⟩
  · exact absurd rfl hne
  by_cases hrest : (a :: t).dropLast = []
  · have ht : t = [] := by
      rcases t with _ | ⟨b, u⟩
      · rfl
      · simp [List.dropLast] at hrest
    subst ht
    refine ⟨a, [], ?_, rfl, rfl, fun i hi h0i => by simp at hi, fun x hx => by simp at hx⟩
    rw [heappop, if_pos hrest]
    rfl
  · have htne : t ≠ [] := by
      intro hh
      subst hh
      exact hrest rfl
    have hlen2 : 2 ≤ (a :: t).length := by
      rcases t with _ | ⟨b, u⟩
      · exact absurd rfl htne
      · simp
    have hdl : (a :: t).dropLast.length = (a :: t).length - 1 := List.length_dropLast _
    have harrlen : ((a :: t).dropLast.set 0 ((a :: t).getLastD default)).length =
        (a :: t).length - 1 := by
      rw [List.length_set, hdl]
    have hAH : AlmostHeap ((a :: t).dropLast.set 0 ((a :: t).getLastD default)) 0 := by
      intro i hi h0i hipne
      rw [harrlen] at hi
      rw [getD_set_ne _ _ _ _ (by omega : (0 : ℕ) ≠ i),
        getD_set_ne _ _ _ _ (fun hh => hipne hh.symm),
        getD_dropLast _ _ (by omega), getD_dropLast _ _ (by omega)]
      exact hheap i (by omega) h0i
    obtain ⟨hH, hL, hM⟩ := siftup_zero_spec _ (by rw [harrlen]; omega) hAH
    refine ⟨(a :: t).dropLast.getD 0 default,
      siftup ((a :: t).dropLast.set 0 ((a :: t).getLastD default)) 0, ?_, ?_, ?_, hH, ?_⟩
    · rw [heappop, if_neg hrest]
    · rw [getD_dropLast _ _ (by omega)]
    · rw [hL, harrlen]
    · intro x hx
      rcases List.mem_or_eq_of_mem_set (hM x hx) with h1 | h2
      · exact (List.dropLast_sublist (a :: t)).mem h1
      · exact h2 ▸ getLastD_mem _ hne

/-- `add_url` preserves the heap invariant of the queue. -/
theorem isHeap_addUrl (f : Frontier) (u : String) (p : ℚ) (h : IsHeap f.queue) :
    IsHeap (addUrl f u p).2.queue := by
  rw [addUrl]
  split
  · exact h
  · split
    · exact h
    · exact isHeap_heappush f.queue _ h

/-- `get_next_url` preserves the heap invariant of the queue. -/
theorem isHeap_getNextUrl (f : Frontier) (h : IsHeap f.queue) :
    IsHeap (getNextUrl f).2.queue := by
  by_cases hne : f.queue = []
  · rw [getNextUrl]
    rcases hpop : heappop f.queue with _ | r
    · exact h
    · rw [hne, heappop] at hpop
      exact Option.noConfusion hpop
  · obtain ⟨r, rest, hpop, _, _, hrh, _⟩ := heappop_spec f.queue hne h
    rw [getNextUrl, hpop]
    exact hrh

/-- The empty frontier's queue is trivially a heap, so by
`isHeap_addUrl` and `isHeap_getNextUrl` every reachable frontier
state satisfies `IsHeap`. -/
theorem isHeap_emptyFrontier (m : ℕ) : IsHeap (emptyFrontier m).queue :=
  fun i hi _ => by simp [emptyFrontier] at hi

/-- C7, amended: on any frontier whose queue satisfies the `heapq`
invariant (all reachable states do), a non-empty `get_next_url` removes
and returns a URL of maximal priority — every queued URL's priority is
at most the returned one, the queue shrinks by one and keeps only
original elements, the invariant is preserved, and with no intervening
adds the next `get_next_url` returns a priority no larger.  (Ties among
equal priorities are NOT broken by discovery time; see the
counterexample.) -/
theorem next_url_returns_max_priority (f : Frontier) (hheap : IsHeap f.queue)
    (hne : f.queue ≠ []) :
    ∃ u p f', getNextUrl f = (some (u, p), f') ∧
      (∀ x, x ∈ f.queue → x.priority ≤ p) ∧
      f'.queue.length = f.queue.length - 1 ∧
      IsHeap f'.queue ∧
      (∀ x, x ∈ f'.queue → x ∈ f.queue) ∧
      (∀ u₂ p₂ f'', getNextUrl f' = (some (u₂, p₂), f'') → p₂ ≤ p) := by
  obtain ⟨r, rest, hpop, hr, hlen, hrh, hmem⟩ := heappop_spec f.queue hne hheap
  refine ⟨r.url, r.priority, { f with queue := rest }, ?_, ?_, hlen, hrh, hmem, ?_⟩
  · rw [getNextUrl, hpop]
  · intro x hx
    obtain ⟨i, hi, hxi⟩ := List.mem_iff_getElem.mp hx
    have hroot := isHeap_root_max f.queue hheap i hi
    rw [getD_eq_getElem _ _ hi, ← hr] at hroot
    simp only [List.get_eq_getElem] at hroot
    rw [hxi] at hroot
    exact hroot
  · intro u₂ p₂ f'' hnext
    by_cases hr2 : rest = []
    · rw [getNextUrl] at hnext
      subst hr2
      simp only [heappop] at hnext
      exact Option.noConfusion (congrArg Prod.fst hnext)
    · obtain ⟨r₂, rest₂, hpop₂, hr₂, _, _, _⟩ := heappop_spec rest hr2 hrh
      rw [getNextUrl] at hnext
      simp only at hnext
      rw [hpop₂] at hnext
      have hpeq : p₂ = r₂.priority := by
        have := congrArg Prod.fst hnext
        simp at this
        exact this.2.symm
      have hr₂mem : r₂ ∈ rest := by
        rw [hr₂]
        exact getD_mem rest 0 (by rcases rest with _ | _
                                  · exact absurd rfl hr2
                                  · simp)
      have hmax := isHeap_root_max f.queue hheap
      obtain ⟨i, hi, hxi⟩ := List.mem_iff_getElem.mp (hmem r₂ hr₂mem)
      have hroot := hmax i hi
      rw [getD_eq_getElem _ _ hi] at hroot
      simp only [List.get_eq_getElem] at hroot
      rw [hxi] at hroot
      rw [hpeq, hr]
      exact hroot

/-- Four equal-priority URLs added in discovery order a, b, c, d. -/
def c7Frontier : Frontier :=
  (addUrl (addUrl (addUrl (addUrl (emptyFrontier 100) "a" 1).2 "b" 1).2 "c" 1).2 "d" 1).2

/-- C7, counterexample to the earliest-discovery tie-break:
`URLInfo.__lt__` compares only priorities, so among equal priorities the
pop order is heap order, not discovery order.  After adding a, b, c, d
with equal priority 1 (discovery times 0, 1, 2, 3) and popping "a", the
queue holds c, b, d and the next `get_next_url` returns "c" (discovered
at time 2) while "b" (equal priority, earlier discovery time 1) is still
queued. -/
theorem next_url_tiebreak_not_earliest_discovery :
    (getNextUrl c7Frontier).1 = some ("a", 1) ∧
      (getNextUrl c7Frontier).2.queue =
        [⟨"c", 1, 2⟩, ⟨"b", 1, 1⟩, ⟨"d", 1, 3⟩] ∧
      (getNextUrl (getNextUrl c7Frontier).2).1 = some ("c", 1) ∧
      (⟨"b", 1, 1⟩ : URLInfo) ∈ (getNextUrl (getNextUrl c7Frontier).2).2.queue := by
  refine ⟨?_, ?_, ?_, ?_⟩ <;>
    simp [c7Frontier, addUrl, emptyFrontier, heappush, siftdownLoop, urlLt, getNextUrl,
      heappop, siftup, siftupLoop]

/-- Witness for `next_url_returns_max_priority` on a concrete two-URL
frontier with priorities 1 and 2. -/
theorem next_url_returns_max_priority_witness :
    IsHeap (addUrl (addUrl (emptyFrontier 10) "a" 1).2 "b" 2).2.queue ∧
      (addUrl (addUrl (emptyFrontier 10) "a" 1).2 "b" 2).2.queue ≠ [] ∧
      (∃ u p f',
        getNextUrl (addUrl (addUrl (emptyFrontier 10) "a" 1).2 "b" 2).2 =
          (some (u, p), f') ∧
        (∀ x, x ∈ (addUrl (addUrl (emptyFrontier 10) "a" 1).2 "b" 2).2.queue →
          x.priority ≤ p) ∧
        f'.queue.length =
          (addUrl (addUrl (emptyFrontier 10) "a" 1).2 "b" 2).2.queue.length - 1 ∧
        IsHeap f'.queue ∧
        (∀ x, x ∈ f'.queue →
          x ∈ (addUrl (addUrl (emptyFrontier 10) "a" 1).2 "b" 2).2.queue) ∧
        (∀ u₂ p₂ f'', getNextUrl f' = (some (u₂, p₂), f'') → p₂ ≤ p)) := by
  have hq : (addUrl (addUrl (emptyFrontier 10) "a" 1).2 "b" 2).2.queue =
      [⟨"b", 2, 1⟩, ⟨"a", 1, 0⟩] := by
    simp [addUrl, emptyFrontier, heappush, siftdownLoop, urlLt]
  have hheap : IsHeap (addUrl (addUrl (emptyFrontier 10) "a" 1).2 "b" 2).2.queue := by
    rw [hq]
    decide
  have hne : (addUrl (addUrl (emptyFrontier 10) "a" 1).2 "b" 2).2.queue ≠ [] := by
    rw [hq]
    simp
  exact ⟨hheap, hne, next_url_returns_max_priority _ hheap hne⟩

/-! ### Theorems: snippet generation (C9) -/

/-- Some query term occurs (case-insensitively) at position `j` of the
content. -/
def occursAt (content : List Char) (terms : List (List Char)) (j : ℕ) : Prop :=
  ∃ t, t ∈ terms ∧ lowerStr t <+: (lowerStr content).drop j

/-- `str.find` semantics: a `some k` result is an occurrence and the
earliest one. -/
theorem findSub_some_spec : ∀ (hay pat : List Char) (k : ℕ),
    findSub hay pat = some k →
      pat <+: hay.drop k ∧ ∀ j, j < k → ¬ pat <+: hay.drop j := by
  intro hay
  induction hay with
  | nil =>
    intro pat k h
    rw [findSub] at h
    split at h
    · rename_i hp
      obtain rfl : (0 : ℕ) = k := Option.some.inj h
      exact ⟨by simpa using hp, fun j hj => absurd hj (by omega)⟩
    · exact Option.noConfusion h
  | cons c t ih =>
    intro pat k h
    rw [findSub] at h
    split at h
    · rename_i hp
      obtain rfl : (0 : ℕ) = k := Option.some.inj h
      exact ⟨by simpa using hp, fun j hj => absurd hj (by omega)⟩
    · rename_i hp
      rcases hf : findSub t pat with _ | k2
      · rw [hf] at h
        exact Option.noConfusion h
      · rw [hf] at h
        obtain rfl : k2 + 1 = k := by simpa using h
        obtain ⟨h1, h2⟩ := ih pat k2 hf
        refine ⟨by simpa [List.drop_succ_cons] using h1, ?_⟩
        intro j hj
        rcases j with _ | j2
        · simpa using hp
        · rw [List.drop_succ_cons]
          exact h2 j2 (by omega)

/-- `str.find` semantics: a `none` result means no occurrence anywhere. -/
theorem findSub_none_spec : ∀ (hay pat : List Char),
    findSub hay pat = none → ∀ j, ¬ pat <+: hay.drop j := by
  intro hay
  induction hay with
  | nil =>
    intro pat h j
    rw [findSub] at h
    split at h
    · exact Option.noConfusion h
    · rename_i hp
      simpa using hp
  | cons c t ih =>
    intro pat h j
    rw [findSub] at h
    split at h
    · exact Option.noConfusion h
    · rename_i hp
      rcases hf : findSub t pat with _ | k2
      · rcases j with _ | j2
        · simpa using hp
        · rw [List.drop_succ_cons]
          exact ih pat hf j2
      · rw [hf] at h
        exact Option.noConfusion h

/-- The running-minimum fold of `_generate_snippet` over the query
terms. -/
theorem firstMatch_fold_spec (cl : List Char) :
    ∀ (terms : List (List Char)) (acc : ℕ),
      (terms.foldl
          (fun a t =>
            match findSub cl (lowerStr t) with
            | some p => if p < a then p else a
            | none => a)
          acc) ≤ acc ∧
      ((terms.foldl
          (fun a t =>
            match findSub cl (lowerStr t) with
            | some p => if p < a then p else a
            | none => a)
          acc) = acc ∨
        ∃ t, t ∈ terms ∧ findSub cl (lowerStr t) =
          some (terms.foldl
            (fun a t =>
              match findSub cl (lowerStr t) with
              | some p => if p < a then p else a
              | none => a)
            acc)) ∧
      (∀ t, t ∈ terms → ∀ p, findSub cl (lowerStr t) = some p →
        (terms.foldl
          (fun a t =>
            match findSub cl (lowerStr t) with
            | some p => if p < a then p else a
            | none => a)
          acc) ≤ p) := by
  intro terms
  induction terms with
  | nil => exact fun acc => ⟨le_refl _, Or.inl rfl, fun t hmem => by simp at hmem⟩
  | cons t0 rest ih =>
    intro acc
    simp only [List.foldl_cons]
    rcases hf : findSub cl (lowerStr t0) with _ | p0
    · obtain ⟨ha, hb, hc⟩ := ih acc
      simp only [hf]
      refine ⟨ha, ?_, ?_⟩
      · rcases hb with hb | ⟨t, htm, hts⟩
        · exact Or.inl hb
        · exact Or.inr ⟨t, List.mem_cons_of_mem t0 htm, hts⟩
      · intro t htm p hp
        rcases List.mem_cons.mp htm with rfl | htm2
        · rw [hf] at hp
          exact Option.noConfusion hp
        · exact hc t htm2 p hp
    · simp only [hf]
      by_cases hlt : p0 < acc
      · rw [if_pos hlt]
        obtain ⟨ha, hb, hc⟩ := ih p0
        refine ⟨le_trans ha (le_of_lt hlt), ?_, ?_⟩
        · rcases hb with hb | ⟨t, htm, hts⟩
          · exact Or.inr ⟨t0, List.mem_cons_self t0 rest, by rw [hf, hb]⟩
          · exact Or.inr ⟨t, List.mem_cons_of_mem t0 htm, hts⟩
        · intro t htm p hp
          rcases List.mem_cons.mp htm with rfl | htm2
          · rw [hf] at hp
            obtain rfl : p0 = p := Option.some.inj hp
            exact ha
          · exact hc t htm2 p hp
      · rw [if_neg hlt]
        obtain ⟨ha, hb, hc⟩ := ih acc
        refine ⟨ha, ?_, ?_⟩
        · rcases hb with hb | ⟨t, htm, hts⟩
          · exact Or.inl hb
          · exact Or.inr ⟨t, List.mem_cons_of_mem t0 htm, hts⟩
        · intro t htm p hp
          rcases List.mem_cons.mp htm with rfl | htm2
          · rw [hf] at hp
            obtain rfl : p0 = p := Option.some.inj hp
            exact le_trans ha (by omega)
          · exact hc t htm2 p hp

theorem firstMatch_le (content : List Char) (terms : List (List Char)) :
    firstMatch content terms ≤ content.length :=
  (firstMatch_fold_spec (lowerStr content) terms content.length).1

theorem firstMatch_min (content : List Char) (terms : List (List Char)) :
    ∀ j, occursAt content terms j → firstMatch content terms ≤ j := by
  intro j ⟨t, htm, hpre⟩
  obtain ⟨-, -, hc⟩ := firstMatch_fold_spec (lowerStr content) terms content.length
  rcases hf : findSub (lowerStr content) (lowerStr t) with _ | p
  · exact absurd hpre (findSub_none_spec _ _ hf j)
  · obtain ⟨hocc, hmin⟩ := findSub_some_spec _ _ _ hf
    have hpj : p ≤ j := by
      by_contra hcon
      exact hmin j (by omega) hpre
    exact le_trans (hc t htm p hf) hpj

theorem firstMatch_occurs (content : List Char) (terms : List (List Char))
    (h : firstMatch content terms ≠ content.length) :
    occursAt content terms (firstMatch content terms) := by
  obtain ⟨-, hb, -⟩ := firstMatch_fold_spec (lowerStr content) terms content.length
  rcases hb with hb | ⟨t, htm, hts⟩
  · exact absurd hb h
  · exact ⟨t, htm, (findSub_some_spec _ _ _ hts).1⟩

/-- C9, counterexample to the no-match clause: on a 200-character
content with no occurrence of the query term, `first_match` stays at
`len(content)`, so the window logic returns an ellipsis plus the LAST 80
characters — not the content prefix (it is not even a prefix of the
content, and differs from `content[:160]` with or without ellipsis). -/
theorem snippet_no_match_returns_suffix_window :
    generateSnippet (List.replicate 200 'a') [['z']] 160 =
        "...".toList ++ List.replicate 80 'a' ∧
      ¬ ("...".toList ++ List.replicate 80 'a') <+: List.replicate 200 'a' ∧
      "...".toList ++ List.replicate 80 'a' ≠
        (List.replicate 200 'a').take 160 ++ "...".toList ∧
      "...".toList ++ List.replicate 80 'a' ≠ (List.replicate (n := 200) 'a').take 160 := by
  refine ⟨?_, ?_, ?_, ?_⟩ <;> decide

/-- C9, amended: for non-empty content and a non-empty term list,
`_generate_snippet` locates `first_match` — the earliest
case-insensitive occurrence position of any query term when one occurs,
and `len(content)` when none does — and returns the window
`content[start:end]` with `start = max(0, first_match − max_length//2)`
and `end = min(len(content), start + max_length)` (hence at most
`max_length` characters), prefixed with an ellipsis exactly when
`start > 0` and suffixed exactly when `end < len(content)`.  When no
term occurs the window therefore ends at `len(content)` — a suffix
window, not the content prefix.  (Empty content or an empty term list
short-circuit to the ellipsis-truncated content prefix.) -/
theorem generate_snippet_spec (content : List Char) (terms : List (List Char))
    (max_length : ℕ) (hc : content ≠ []) (ht : terms ≠ []) :
    (∀ j, occursAt content terms j → firstMatch content terms ≤ j) ∧
      (firstMatch content terms ≠ content.length →
        occursAt content terms (firstMatch content terms)) ∧
      ((∀ j, ¬ occursAt content terms j) →
        firstMatch content terms = content.length ∧
          snipStop content terms max_length = content.length) ∧
      snipStop content terms max_length - snipStart content terms max_length ≤
        max_length ∧
      generateSnippet content terms max_length =
        (if 0 < snipStart content terms max_length then "...".toList else []) ++
          (content.drop (snipStart content terms max_length)).take
            (snipStop content terms max_length - snipStart content terms max_length) ++
          (if snipStop content terms max_length < content.length then "...".toList
            else []) := by
  refine ⟨firstMatch_min content terms, firstMatch_occurs content terms, ?_, ?_, ?_⟩
  · intro hno
    have hfm : firstMatch content terms = content.length := by
      by_contra hne
      exact hno _ (firstMatch_occurs content terms hne)
    refine ⟨hfm, ?_⟩
    rw [snipStop, snipStart, hfm]
    by_cases h2 : max_length / 2 ≤ content.length
    · rw [if_pos h2]
      have : max_length / 2 ≤ max_length := Nat.div_le_self _ _
      omega
    · rw [if_neg h2]
      omega
  · rw [snipStop, snipStart]
    by_cases h2 : max_length / 2 ≤ firstMatch content terms
    · rw [if_pos h2]
      omega
    · rw [if_neg h2]
      omega
  · rw [generateSnippet, if_neg (by simp [hc, ht])]
    by_cases h1 : 0 < snipStart content terms max_length <;>
      by_cases h2 : snipStop content terms max_length < content.length <;>
        simp [h1, h2]

/-- Witness for `generate_snippet_spec` at the spec's scenario 6:
content `"The quick brown fox jumps over the lazy dog"`, terms
`["fox"]`, `max_length = 20`. -/
theorem generate_snippet_spec_witness :
    ("The quick brown fox jumps over the lazy dog".toList ≠ [] ∧
        (["fox".toList] : List (List Char)) ≠ []) ∧
      ((∀ j, occursAt "The quick brown fox jumps over the lazy dog".toList
          ["fox".toList] j →
          firstMatch "The quick brown fox jumps over the lazy dog".toList
            ["fox".toList] ≤ j) ∧
        (firstMatch "The quick brown fox jumps over the lazy dog".toList
            ["fox".toList] ≠
            "The quick brown fox jumps over the lazy dog".toList.length →
          occursAt "The quick brown fox jumps over the lazy dog".toList
            ["fox".toList]
            (firstMatch "The quick brown fox jumps over the lazy dog".toList
              ["fox".toList])) ∧
        ((∀ j, ¬ occursAt "The quick brown fox jumps over the lazy dog".toList
            ["fox".toList] j) →
          firstMatch "The quick brown fox jumps over the lazy dog".toList
              ["fox".toList] =
            "The quick brown fox jumps over the lazy dog".toList.length ∧
            snipStop "The quick brown fox jumps over the lazy dog".toList
                ["fox".toList] 20 =
              "The quick brown fox jumps over the lazy dog".toList.length) ∧
        snipStop "The quick brown fox jumps over the lazy dog".toList
            ["fox".toList] 20 -
          snipStart "The quick brown fox jumps over the lazy dog".toList
            ["fox".toList] 20 ≤ 20 ∧
        generateSnippet "The quick brown fox jumps over the lazy dog".toList
            ["fox".toList] 20 =
          (if 0 < snipStart "The quick brown fox jumps over the lazy dog".toList
              ["fox".toList] 20 then "...".toList else []) ++
            ("The quick brown fox jumps over the lazy dog".toList.drop
              (snipStart "The quick brown fox jumps over the lazy dog".toList
                ["fox".toList] 20)).take
              (snipStop "The quick brown fox jumps over the lazy dog".toList
                  ["fox".toList] 20 -
                snipStart "The quick brown fox jumps over the lazy dog".toList
                  ["fox".toList] 20) ++
            (if snipStop "The quick brown fox jumps over the lazy dog".toList
                ["fox".toList] 20 <
                "The quick brown fox jumps over the lazy dog".toList.length then
              "...".toList
            else [])) :=
  ⟨⟨by decide, by decide⟩,
    generate_snippet_spec "The quick brown fox jumps over the lazy dog".toList
      ["fox".toList] 20 (by decide) (by decide)⟩

end SearchEngine
